import Mathlib

/-!
Verification of the scalar reverse-mode autodiff engine of
`basic_ml/value_backprop.py` (the `Value` class, its operators, the
topological-sort backward pass) and of the `Neuron` consumer.

The computation graph is embedded as an arena: a list of nodes, where a
node's position in the list is its identity.  Each Python `Value` object
becomes one arena entry; Python object identity becomes the arena index,
so the identity-based `set(_children)` and the identity-based `visited`
set of the backward pass are modelled on indices.  A node can only be
created from already existing nodes, hence in every store built by the
operators all predecessor indices of a node are smaller than the node's
own index; `storeWF` records exactly this together with the wiring the
operators establish between a node and its recorded backward rule.

The `_backward` closures are represented by the inductive `BRule`, one
constructor per operator, carrying exactly the data each closure
captures (for `tanh` the captured forward value `t`, for `pow` the
exponent); `runRule` performs the same sequential `+=` updates the
closures perform, reading the live store exactly where the closures
read live attributes.  `math.exp` is kept abstract as a function
parameter `expF` of the two operators that use it and is instantiated
with `Real.exp` in the theorems about real-valued graphs.  Python
numbers are modelled by the scalar type itself; the exponent of `pow`
is modelled as an integer (the source accepts `int` and `float`
exponents and the repository only ever uses the integer exponents
`-1` and `2`).
-/

/-- The local backward rule recorded on a node, one constructor per
`_backward` closure shape of the source.  `noop` is the default
`lambda: None` of leaf nodes. -/
inductive BRule (α : Type) where
  | noop : BRule α
  | addR (a b out : Nat) : BRule α
  | mulR (a b out : Nat) : BRule α
  | powR (a : Nat) (k : ℤ) (out : Nat) : BRule α
  | tanhR (a : Nat) (t : α) (out : Nat) : BRule α
  | expR (a out : Nat) : BRule α
  deriving DecidableEq

/-- One `Value` object: forward value `data`, accumulated gradient
`grad`, identity-deduplicated predecessor indices `prev` (Python's
`self._prev = set(_children)`), the diagnostic operator tag `op`, the
recorded backward rule, and the cosmetic `label`. -/
structure NodeV (α : Type) where
  data : α
  grad : α
  prev : List Nat
  op : String
  rule : BRule α
  label : String
  deriving DecidableEq

/-- The arena holding every node created so far; an index into the
store is a node identity. -/
abbrev Store (α : Type) := List (NodeV α)

/-- Forward value of node `v` (0 for an out-of-range index, which the
operators never produce). -/
def dataOf {α : Type} [Field α] : Store α → Nat → α
  | [], _ => 0
  | n :: _, 0 => n.data
  | _ :: s, v + 1 => dataOf s v

/-- Current gradient of node `v`. -/
def gradOf {α : Type} [Field α] : Store α → Nat → α
  | [], _ => 0
  | n :: _, 0 => n.grad
  | _ :: s, v + 1 => gradOf s v

/-- Predecessor indices of node `v`. -/
def prevOf {α : Type} : Store α → Nat → List Nat
  | [], _ => []
  | n :: _, 0 => n.prev
  | _ :: s, v + 1 => prevOf s v

/-- Backward rule of node `v`. -/
def ruleOf {α : Type} : Store α → Nat → BRule α
  | [], _ => BRule.noop
  | n :: _, 0 => n.rule
  | _ :: s, v + 1 => ruleOf s v

/-- Apply `f` to the gradient of node `v`, leaving every other field
and node untouched (`grad` is the only mutable field of a node). -/
def modifyGrad {α : Type} : Store α → Nat → (α → α) → Store α
  | [], _, _ => []
  | n :: s, 0, f => { n with grad := f n.grad } :: s
  | n :: s, v + 1, f => n :: modifyGrad s v f

/-- `v.grad = x` (plain assignment, used by `backward` on the root). -/
def setGrad {α : Type} (s : Store α) (v : Nat) (x : α) : Store α :=
  modifyGrad s v (fun _ => x)

/-- `v.grad += x`. -/
def addGrad {α : Type} [Field α] (s : Store α) (v : Nat) (x : α) : Store α :=
  modifyGrad s v (fun g => g + x)

/-- The operand indices a rule's closure writes gradient into. -/
def ruleSrcIds {α : Type} : BRule α → List Nat
  | BRule.noop => []
  | BRule.addR a b _ => [a, b]
  | BRule.mulR a b _ => [a, b]
  | BRule.powR a _ _ => [a]
  | BRule.tanhR a _ _ => [a]
  | BRule.expR a _ => [a]

/-- The output node a rule's closure reads `out.grad` from, when any. -/
def ruleOutId {α : Type} : BRule α → Option Nat
  | BRule.noop => none
  | BRule.addR _ _ out => some out
  | BRule.mulR _ _ out => some out
  | BRule.powR _ _ out => some out
  | BRule.tanhR _ t out => (fun _ => some out) t
  | BRule.expR _ out => some out

/-- Well-formedness of the node at index `m`: predecessors were created
earlier (forward construction), the rule writes only into recorded
predecessors, and the rule's `out` is the node itself — exactly the
wiring every operator of the source establishes. -/
def nodeWF {α : Type} (s : Store α) (m : Nat) : Prop :=
  (∀ u ∈ prevOf s m, u < m) ∧
  (∀ u ∈ ruleSrcIds (ruleOf s m), u ∈ prevOf s m) ∧
  (ruleOutId (ruleOf s m)).getD m = m

instance {α : Type} (s : Store α) (m : Nat) : Decidable (nodeWF s m) := by
  unfold nodeWF; infer_instance

/-- Well-formedness of the whole arena. -/
def storeWF {α : Type} (s : Store α) : Prop :=
  ∀ m, m < s.length → nodeWF s m

instance {α : Type} (s : Store α) : Decidable (storeWF s) := by
  unfold storeWF; infer_instance

/-- `w` is reachable from `v` by following predecessor edges zero or
more times (the nodes the backward traversal started at `v` visits). -/
inductive Reaches {α : Type} (s : Store α) : Nat → Nat → Prop where
  | refl (v : Nat) : Reaches s v v
  | step {v u w : Nat} : u ∈ prevOf s v → Reaches s u w → Reaches s v w

/-- A binary operand of the source's duck-typed operators: either an
existing node or a raw Python number (promoted to a fresh leaf). -/
inductive POperand (α : Type) where
  | node (i : Nat) : POperand α
  | num (c : α) : POperand α

/-- The exponent operand of `__pow__`: a raw number or a node.  The
source accepts `int` and `float` exponents; the model uses integers,
which covers every exponent the repository uses. -/
inductive PowArg (α : Type) where
  | pnum (k : ℤ) : PowArg α
  | pnode (j : Nat) : PowArg α

/-- `Value(x)`: a fresh leaf node (empty predecessors, no-op backward,
empty tags), returning the extended store and the new node's index. -/
def mkValue {α : Type} [Field α] (s : Store α) (x : α) : Store α × Nat :=
  (s ++ [⟨x, 0, [], "", BRule.noop, ""⟩], s.length)

/-- `other if isinstance(other, Value) else Value(other)`. -/
def promoteOp {α : Type} [Field α] (s : Store α) : POperand α → Store α × Nat
  | POperand.node i => (s, i)
  | POperand.num c => mkValue s c

/-- `Value.__add__`: promote the operand, then create the sum node with
`_children = (self, other)` deduplicated by identity and the closure
`self.grad += 1.0 * out.grad; other.grad += 1.0 * out.grad`. -/
def addOp {α : Type} [Field α] (s : Store α) (i : Nat) (o : POperand α) : Store α × Nat :=
  let p := promoteOp s o
  (p.1 ++ [⟨dataOf p.1 i + dataOf p.1 p.2, 0, List.dedup [i, p.2], "+",
            BRule.addR i p.2 p.1.length, ""⟩], p.1.length)

/-- `Value.__mul__`: as `addOp`, with the closure
`self.grad += other.data * out.grad; other.grad += self.data * out.grad`. -/
def mulOp {α : Type} [Field α] (s : Store α) (i : Nat) (o : POperand α) : Store α × Nat :=
  let p := promoteOp s o
  (p.1 ++ [⟨dataOf p.1 i * dataOf p.1 p.2, 0, List.dedup [i, p.2], "*",
            BRule.mulR i p.2 p.1.length, ""⟩], p.1.length)

/-- The node built by `Value.__pow__` once the exponent passed the
`isinstance` check: value `self.data ** other`, single predecessor,
closure `self.grad += other * self.data ** (other - 1) * out.grad`. -/
def powNum {α : Type} [Field α] (s : Store α) (i : Nat) (k : ℤ) : Store α × Nat :=
  (s ++ [⟨dataOf s i ^ k, 0, [i], "**" ++ toString k,
          BRule.powR i k s.length, ""⟩], s.length)

/-- `Value.__pow__`: raises `ValueError` when the exponent operand is a
node rather than a number. -/
def powOp {α : Type} [Field α] (s : Store α) (i : Nat) :
    PowArg α → Except String (Store α × Nat)
  | PowArg.pnode _ => Except.error "Only supporting int and float powers for now"
  | PowArg.pnum k => Except.ok (powNum s i k)

/-- `Value.__neg__`: `self * -1` (a promoted `-1` leaf plus a product
node). -/
def negOp {α : Type} [Field α] (s : Store α) (i : Nat) : Store α × Nat :=
  mulOp s i (POperand.num (-1))

/-- `Value.__sub__`: `self + (-other)`.  For a raw number the negation
happens in raw arithmetic before promotion, so the promoted leaf holds
`-c`, not `c`. -/
def subOp {α : Type} [Field α] (s : Store α) (i : Nat) : POperand α → Store α × Nat
  | POperand.num c => addOp s i (POperand.num (-c))
  | POperand.node j =>
      let p := negOp s j
      addOp p.1 i (POperand.node p.2)

/-- `Value.__truediv__`: `self * other ** -1`.  For a raw number the
reciprocal is computed in raw arithmetic before promotion (Python would
raise `ZeroDivisionError` at `c = 0`; field inverse returns 0 there —
no claim touches that point). -/
def divOp {α : Type} [Field α] (s : Store α) (i : Nat) : POperand α → Store α × Nat
  | POperand.num c => mulOp s i (POperand.num c⁻¹)
  | POperand.node j =>
      let p := powNum s j (-1)
      mulOp p.1 i (POperand.node p.2)

/-- `Value.exp`: value `math.exp(self.data)`, closure
`self.grad += out.data * out.grad` (reads the live `out.data`). -/
def expOp {α : Type} [Field α] (expF : α → α) (s : Store α) (i : Nat) : Store α × Nat :=
  (s ++ [⟨expF (dataOf s i), 0, [i], "exp", BRule.expR i s.length, ""⟩], s.length)

/-- `Value.tanh`: `t = (exp(2n) - 1) / (exp(2n) + 1)`, closure
`self.grad += (1 - t ** 2) * out.grad` with `t` captured at
construction. -/
def tanhOp {α : Type} [Field α] (expF : α → α) (s : Store α) (i : Nat) : Store α × Nat :=
  let t := (expF (2 * dataOf s i) - 1) / (expF (2 * dataOf s i) + 1)
  (s ++ [⟨t, 0, [i], "tanh", BRule.tanhR i t s.length, ""⟩], s.length)

/-- The four arithmetic operators with a raw number on the left. -/
inductive BinKind where
  | badd : BinKind
  | bsub : BinKind
  | bmul : BinKind
  | bdiv : BinKind

/-- Python's binary dispatch for `number op Value`: the number's own
method returns `NotImplemented`, so Python falls back to the reflected
method of `Value`.  The source defines `__radd__` (which returns
`self + other`) and `__rmul__` (which returns `self * other`) but no
`__rsub__` and no `__rtruediv__`, so `number - Value` and
`number / Value` end in a `TypeError`. -/
def numLeftApply {α : Type} [Field α] (k : BinKind) (s : Store α) (c : α) (i : Nat) :
    Except String (Store α × Nat) :=
  match k with
  | BinKind.badd => Except.ok (addOp s i (POperand.num c))
  | BinKind.bmul => Except.ok (mulOp s i (POperand.num c))
  | BinKind.bsub => Except.error "TypeError: unsupported operand type for -"
  | BinKind.bdiv => Except.error "TypeError: unsupported operand type for /"

/-- The running value of Python's builtin `sum`: the raw integer start
value `0`, or the node the partial sum has become. -/
def pyAcc (α : Type) := α ⊕ Nat

/-- One `result = result + item` step of `sum`, `item` being a node:
while `result` is still the raw start value this goes through
`Value.__radd__`, i.e. `item + result` with `result` promoted. -/
def pyAddStep {α : Type} [Field α] (s : Store α) (acc : pyAcc α) (j : Nat) : Store α × Nat :=
  match acc with
  | Sum.inl c => addOp s j (POperand.num c)
  | Sum.inr i => addOp s i (POperand.node j)

/-- `Neuron.__call__` on input nodes `xs` for a neuron with weight
nodes `ws` and bias node `b`:
`act = sum(w1 * x1 for w1, x1 in zip(self.w, x)) + self.b` followed by
`act.tanh()`.  `zip` silently truncates to the shorter of `ws` and
`xs`; there is no length check anywhere. -/
def neuronCall {α : Type} [Field α] (expF : α → α) (s : Store α)
    (ws xs : List Nat) (b : Nat) : Store α × Nat :=
  let r := (ws.zip xs).foldl
    (fun (st : Store α × pyAcc α) wx =>
      let p := mulOp st.1 wx.1 (POperand.node wx.2)
      let q := pyAddStep p.1 st.2 p.2
      (q.1, Sum.inr q.2))
    (s, Sum.inl 0)
  let act := pyAddStep r.1 r.2 b
  tanhOp expF act.1 act.2

/-- The recursive `build_topo` of `Value.backward`, fuel-indexed.  The
state is `(visited, topo)`; the fuel only has to exceed the start
index, because every predecessor edge decreases the index.  The body
is exactly the source: skip if visited, else mark visited, recurse
into every predecessor, then append the node (post-order). -/
def dfsAux {α : Type} (s : Store α) : Nat → Nat → List Nat × List Nat → List Nat × List Nat
  | 0, _, st => st
  | fuel + 1, v, st =>
      if v ∈ st.1 then st
      else
        let st1 := (prevOf s v).foldl (fun acc c => dfsAux s fuel c acc) (v :: st.1, st.2)
        (st1.1, st1.2 ++ [v])

/-- The topological sequence `topo` built internally by
`backward(root)`. -/
def topoOf {α : Type} (s : Store α) (root : Nat) : List Nat :=
  (dfsAux s (root + 1) root ([], [])).2

/-- The gradient contributions of a rule, as `(target, weight)` pairs
in the order the closure performs them; the weight is the local
derivative multiplying `out.grad`. -/
def cList {α : Type} [Field α] (s : Store α) : BRule α → List (Nat × α)
  | BRule.noop => []
  | BRule.addR a b _ => [(a, 1), (b, 1)]
  | BRule.mulR a b _ => [(a, dataOf s b), (b, dataOf s a)]
  | BRule.powR a k _ => [(a, (k : α) * dataOf s a ^ (k - 1))]
  | BRule.tanhR a t _ => [(a, 1 - t ^ 2)]
  | BRule.expR a out => [(a, dataOf s out)]

/-- The weights of all parallel edges from node `m` down into node `u`
(two for `u * u`, since both closure lines then hit `u`). -/
def edgesInto {α : Type} [Field α] (s : Store α) (u m : Nat) : List α :=
  (((cList s (ruleOf s m)).filter (fun p => p.1 == u)).map Prod.snd)

/-- Total local derivative of node `m` with respect to node `u`
(sum of all parallel edges). -/
def cw {α : Type} [Field α] (s : Store α) (u m : Nat) : α :=
  (edgesInto s u m).sum

/-- Execute one `_backward` closure: the same sequential `+=` updates,
reading `data` and `out.grad` from the live store exactly where the
closure reads live attributes. -/
def runRule {α : Type} [Field α] (s : Store α) : BRule α → Store α
  | BRule.noop => s
  | BRule.addR a b out =>
      let s1 := addGrad s a (1 * gradOf s out)
      addGrad s1 b (1 * gradOf s1 out)
  | BRule.mulR a b out =>
      let s1 := addGrad s a (dataOf s b * gradOf s out)
      addGrad s1 b (dataOf s1 a * gradOf s1 out)
  | BRule.powR a k out =>
      addGrad s a ((k : α) * dataOf s a ^ (k - 1) * gradOf s out)
  | BRule.tanhR a t out =>
      addGrad s a ((1 - t ^ 2) * gradOf s out)
  | BRule.expR a out =>
      addGrad s a (dataOf s out * gradOf s out)

/-- `for node in l: node._backward()`. -/
def runList {α : Type} [Field α] (s : Store α) (l : List Nat) : Store α :=
  l.foldl (fun st v => runRule st (ruleOf st v)) s

/-- `Value.backward`: build the topological sequence, assign
`self.grad = 1.0`, then run every closure in reversed order. -/
def backward {α : Type} [Field α] (s : Store α) (root : Nat) : Store α :=
  runList (setGrad s root 1) (topoOf s root).reverse

/-- The linear flow recurrence the backward pass realises: starting
gradients `g`, restricted to the visited set `T`; node `v` receives its
start value plus, for every visited node `m` above it, the total local
derivative times `m`'s settled flow.  Fuel-indexed; `s.length` is
always enough fuel. -/
def flowAux {α : Type} [Field α] (s : Store α) (T : List Nat) (g : Nat → α) :
    Nat → Nat → α
  | 0, v => g v
  | fuel + 1, v =>
      g v + Finset.sum (Finset.range s.length)
        (fun m => if v < m ∧ m ∈ T then cw s v m * flowAux s T g fuel m else 0)

/-- All ascending paths from node `v` to `root`: a path is the list of
`(next node, edge weight)` steps, one entry per parallel edge choice. -/
def pathsAux {α : Type} [Field α] (s : Store α) (root : Nat) :
    Nat → Nat → List (List (Nat × α))
  | 0, v => if v = root then [[]] else []
  | fuel + 1, v =>
      (if v = root then [[]] else []) ++
      (List.range s.length).flatMap (fun m =>
        if v < m then
          (edgesInto s v m).flatMap
            (fun w => (pathsAux s root fuel m).map (fun p => (m, w) :: p))
        else [])

/-- The contribution of one path: the product of its edge weights
(the chain rule along that path). -/
def pathWeight {α : Type} [Field α] (p : List (Nat × α)) : α :=
  (p.map Prod.snd).prod

/-- `∂root/∂v` as the multivariate chain rule states it: the sum over
all paths from `v` up to `root` of the product of the local
derivatives along the path. -/
def pathSum {α : Type} [Field α] (s : Store α) (root v : Nat) : α :=
  ((pathsAux s root s.length v).map pathWeight).sum

/-- The value the backward pass is about to leave in the `grad` field
of a visited node: the start gradient (after `root.grad = 1.0`) plus,
for every visited node `m` above `v`, the local derivative times `m`'s
own settled value. -/
def flowOf {α : Type} [Field α] (s : Store α) (root v : Nat) : α :=
  flowAux s (topoOf s root) (gradOf (setGrad s root 1)) s.length v

/-- Witness store: two leaves `2`, `3` and their product, exactly the
arena `Value(2) * Value(3)` builds (a theorem below checks this). -/
def demoMul : Store ℝ :=
  [⟨2, 0, [], "", BRule.noop, ""⟩, ⟨3, 0, [], "", BRule.noop, ""⟩,
   ⟨6, 0, [0, 1], "*", BRule.mulR 0 1 2, ""⟩]

/-- Witness store: `demoMul` extended by an extra leaf that is
unreachable from the product node and carries a nonzero gradient. -/
def demoFrame : Store ℝ :=
  demoMul ++ [⟨7, 5, [], "", BRule.noop, ""⟩]

/-- Witness store for the two-call analysis: leaves `x`, `y`, `z`,
the product `x * y` (index 3) and the root `(x * y) * z` (index 4),
exactly the arena `(Value(x) * Value(y)) * Value(z)` builds. -/
def demoChain (x y z : ℝ) : Store ℝ :=
  [⟨x, 0, [], "", BRule.noop, ""⟩, ⟨y, 0, [], "", BRule.noop, ""⟩,
   ⟨z, 0, [], "", BRule.noop, ""⟩,
   ⟨x * y, 0, [0, 1], "*", BRule.mulR 0 1 3, ""⟩,
   ⟨x * y * z, 0, [3, 2], "*", BRule.mulR 3 2 4, ""⟩]

/-- `demoChainG1 x y z` after one more `backward` on the root:
the exact store the second pass produces, gradients unreduced. -/
def demoChainG2 (x y z : ℝ) : Store ℝ :=
  [⟨x, 0 + y * (0 + z * 1) + y * (0 + z * 1 + z * 1), [], "", BRule.noop, ""⟩,
   ⟨y, 0 + x * (0 + z * 1) + x * (0 + z * 1 + z * 1), [], "", BRule.noop, ""⟩,
   ⟨z, 0 + x * y * 1 + x * y * 1, [], "", BRule.noop, ""⟩,
   ⟨x * y, 0 + z * 1 + z * 1, [0, 1], "*", BRule.mulR 0 1 3, ""⟩,
   ⟨x * y * z, 1, [3, 2], "*", BRule.mulR 3 2 4, ""⟩]

/-- Witness store: a single leaf holding `5`. -/
def demoLeaf5 : Store ℝ :=
  [⟨5, 0, [], "", BRule.noop, ""⟩]

/-- `demoMul` after one `backward` on the product node (index 2):
the exact store the pass produces, gradient expressions unreduced. -/
def demoMulG1 : Store ℝ :=
  [⟨2, 0 + 3 * 1, [], "", BRule.noop, ""⟩,
   ⟨3, 0 + 2 * 1, [], "", BRule.noop, ""⟩,
   ⟨6, 1, [0, 1], "*", BRule.mulR 0 1 2, ""⟩]

/-- `demoChain x y z` after one `backward` on the root (index 4):
the exact store the pass produces, gradient expressions unreduced. -/
def demoChainG1 (x y z : ℝ) : Store ℝ :=
  [⟨x, 0 + y * (0 + z * 1), [], "", BRule.noop, ""⟩,
   ⟨y, 0 + x * (0 + z * 1), [], "", BRule.noop, ""⟩,
   ⟨z, 0 + x * y * 1, [], "", BRule.noop, ""⟩,
   ⟨x * y, 0 + z * 1, [0, 1], "*", BRule.mulR 0 1 3, ""⟩,
   ⟨x * y * z, 1, [3, 2], "*", BRule.mulR 3 2 4, ""⟩]

/-- Witness store for the neuron: weights `w1`, `w2` (indices 0, 1),
bias (index 2) and one input node (index 3). -/
def demoNeuronStore (w1 w2 bv x1 : ℝ) : Store ℝ :=
  [⟨w1, 0, [], "", BRule.noop, ""⟩, ⟨w2, 0, [], "", BRule.noop, ""⟩,
   ⟨bv, 0, [], "", BRule.noop, ""⟩, ⟨x1, 0, [], "", BRule.noop, ""⟩]

/-- Invariant of the `(visited, topo)` state of `build_topo`: the
output is duplicate-free, output nodes are visited and in range, the
output is closed under predecessors, and no later output node is a
predecessor of an earlier one (children first). -/
def dfsInv {α : Type} (s : Store α) (vis topo : List Nat) : Prop :=
  topo.Nodup ∧ (∀ x ∈ topo, x ∈ vis) ∧ (∀ x ∈ topo, x < s.length) ∧
  (∀ m ∈ topo, ∀ u ∈ prevOf s m, u ∈ topo) ∧
  topo.Pairwise (fun p q => q ∉ prevOf s p)

/-! ### Basic store lemmas -/

theorem modifyGrad_length {α : Type} (s : Store α) (v : Nat) (f : α → α) :
    (modifyGrad s v f).length = s.length := by
  induction s generalizing v with
  | nil => rfl
  | cons n s ih =>
    cases v with
    | zero => rfl
    | succ v => simp [modifyGrad, ih]

theorem modifyGrad_of_len_le {α : Type} (s : Store α) (v : Nat) (f : α → α)
    (h : s.length ≤ v) : modifyGrad s v f = s := by
  induction s generalizing v with
  | nil => rfl
  | cons n s ih =>
    cases v with
    | zero => simp at h
    | succ v => simp only [modifyGrad]; rw [ih v (by simpa using h)]

theorem gradOf_modifyGrad_self {α : Type} [Field α] (s : Store α) (v : Nat) (f : α → α)
    (h : v < s.length) : gradOf (modifyGrad s v f) v = f (gradOf s v) := by
  induction s generalizing v with
  | nil => simp at h
  | cons n s ih =>
    cases v with
    | zero => rfl
    | succ v => simpa [modifyGrad, gradOf] using ih v (by simpa using h)

theorem gradOf_modifyGrad_ne {α : Type} [Field α] (s : Store α) (v u : Nat) (f : α → α)
    (h : u ≠ v) : gradOf (modifyGrad s v f) u = gradOf s u := by
  induction s generalizing v u with
  | nil => rfl
  | cons n s ih =>
    cases v with
    | zero =>
      cases u with
      | zero => exact absurd rfl h
      | succ u => rfl
    | succ v =>
      cases u with
      | zero => rfl
      | succ u => simpa [modifyGrad, gradOf] using ih v u (by omega)

theorem dataOf_modifyGrad {α : Type} [Field α] (s : Store α) (v u : Nat) (f : α → α) :
    dataOf (modifyGrad s v f) u = dataOf s u := by
  induction s generalizing v u with
  | nil => rfl
  | cons n s ih =>
    cases v with
    | zero => cases u <;> rfl
    | succ v =>
      cases u with
      | zero => rfl
      | succ u => simpa [modifyGrad, dataOf] using ih v u

theorem prevOf_modifyGrad {α : Type} (s : Store α) (v u : Nat) (f : α → α) :
    prevOf (modifyGrad s v f) u = prevOf s u := by
  induction s generalizing v u with
  | nil => rfl
  | cons n s ih =>
    cases v with
    | zero => cases u <;> rfl
    | succ v =>
      cases u with
      | zero => rfl
      | succ u => simpa [modifyGrad, prevOf] using ih v u

theorem ruleOf_modifyGrad {α : Type} (s : Store α) (v u : Nat) (f : α → α) :
    ruleOf (modifyGrad s v f) u = ruleOf s u := by
  induction s generalizing v u with
  | nil => rfl
  | cons n s ih =>
    cases v with
    | zero => cases u <;> rfl
    | succ v =>
      cases u with
      | zero => rfl
      | succ u => simpa [modifyGrad, ruleOf] using ih v u

theorem gradOf_of_len_le {α : Type} [Field α] (s : Store α) (u : Nat)
    (h : s.length ≤ u) : gradOf s u = 0 := by
  induction s generalizing u with
  | nil => rfl
  | cons n s ih =>
    cases u with
    | zero => simp at h
    | succ u => simpa [gradOf] using ih u (by simpa using h)

theorem dataOf_of_len_le {α : Type} [Field α] (s : Store α) (u : Nat)
    (h : s.length ≤ u) : dataOf s u = 0 := by
  induction s generalizing u with
  | nil => rfl
  | cons n s ih =>
    cases u with
    | zero => simp at h
    | succ u => simpa [dataOf] using ih u (by simpa using h)

theorem prevOf_of_len_le {α : Type} (s : Store α) (u : Nat)
    (h : s.length ≤ u) : prevOf s u = [] := by
  induction s generalizing u with
  | nil => rfl
  | cons n s ih =>
    cases u with
    | zero => simp at h
    | succ u => simpa [prevOf] using ih u (by simpa using h)

theorem ruleOf_of_len_le {α : Type} (s : Store α) (u : Nat)
    (h : s.length ≤ u) : ruleOf s u = BRule.noop := by
  induction s generalizing u with
  | nil => rfl
  | cons n s ih =>
    cases u with
    | zero => simp at h
    | succ u => simpa [ruleOf] using ih u (by simpa using h)

theorem dataOf_append_lt {α : Type} [Field α] (s t : Store α) (u : Nat)
    (h : u < s.length) : dataOf (s ++ t) u = dataOf s u := by
  induction s generalizing u with
  | nil => simp at h
  | cons n s ih =>
    cases u with
    | zero => rfl
    | succ u => simpa [dataOf] using ih u (by simpa using h)

theorem gradOf_append_lt {α : Type} [Field α] (s t : Store α) (u : Nat)
    (h : u < s.length) : gradOf (s ++ t) u = gradOf s u := by
  induction s generalizing u with
  | nil => simp at h
  | cons n s ih =>
    cases u with
    | zero => rfl
    | succ u => simpa [gradOf] using ih u (by simpa using h)

theorem prevOf_append_lt {α : Type} (s t : Store α) (u : Nat)
    (h : u < s.length) : prevOf (s ++ t) u = prevOf s u := by
  induction s generalizing u with
  | nil => simp at h
  | cons n s ih =>
    cases u with
    | zero => rfl
    | succ u => simpa [prevOf] using ih u (by simpa using h)

theorem ruleOf_append_lt {α : Type} (s t : Store α) (u : Nat)
    (h : u < s.length) : ruleOf (s ++ t) u = ruleOf s u := by
  induction s generalizing u with
  | nil => simp at h
  | cons n s ih =>
    cases u with
    | zero => rfl
    | succ u => simpa [ruleOf] using ih u (by simpa using h)

theorem dataOf_append_right {α : Type} [Field α] (s t : Store α) (k : Nat) :
    dataOf (s ++ t) (s.length + k) = dataOf t k := by
  induction s with
  | nil => simp
  | cons n s ih => simpa [dataOf, Nat.succ_add] using ih

theorem gradOf_append_right {α : Type} [Field α] (s t : Store α) (k : Nat) :
    gradOf (s ++ t) (s.length + k) = gradOf t k := by
  induction s with
  | nil => simp
  | cons n s ih => simpa [gradOf, Nat.succ_add] using ih

theorem prevOf_append_right {α : Type} (s t : Store α) (k : Nat) :
    prevOf (s ++ t) (s.length + k) = prevOf t k := by
  induction s with
  | nil => simp
  | cons n s ih => simpa [prevOf, Nat.succ_add] using ih

theorem ruleOf_append_right {α : Type} (s t : Store α) (k : Nat) :
    ruleOf (s ++ t) (s.length + k) = ruleOf t k := by
  induction s with
  | nil => simp
  | cons n s ih => simpa [ruleOf, Nat.succ_add] using ih

/-! ### Gradient effect of one closure -/

@[simp]
theorem length_addGrad {α : Type} [Field α] (s : Store α) (v : Nat) (x : α) :
    (addGrad s v x).length = s.length := by
  simp [addGrad, modifyGrad_length]

@[simp]
theorem length_setGrad {α : Type} (s : Store α) (v : Nat) (x : α) :
    (setGrad s v x).length = s.length := by
  simp [setGrad, modifyGrad_length]

@[simp]
theorem dataOf_addGrad {α : Type} [Field α] (s : Store α) (v : Nat) (x : α) (u : Nat) :
    dataOf (addGrad s v x) u = dataOf s u := by
  simp [addGrad, dataOf_modifyGrad]

@[simp]
theorem prevOf_addGrad {α : Type} [Field α] (s : Store α) (v : Nat) (x : α) (u : Nat) :
    prevOf (addGrad s v x) u = prevOf s u := by
  simp [addGrad, prevOf_modifyGrad]

@[simp]
theorem ruleOf_addGrad {α : Type} [Field α] (s : Store α) (v : Nat) (x : α) (u : Nat) :
    ruleOf (addGrad s v x) u = ruleOf s u := by
  simp [addGrad, ruleOf_modifyGrad]

@[simp]
theorem dataOf_setGrad {α : Type} [Field α] (s : Store α) (v : Nat) (x : α) (u : Nat) :
    dataOf (setGrad s v x) u = dataOf s u := by
  simp [setGrad, dataOf_modifyGrad]

@[simp]
theorem prevOf_setGrad {α : Type} (s : Store α) (v : Nat) (x : α) (u : Nat) :
    prevOf (setGrad s v x) u = prevOf s u := by
  simp [setGrad, prevOf_modifyGrad]

@[simp]
theorem ruleOf_setGrad {α : Type} (s : Store α) (v : Nat) (x : α) (u : Nat) :
    ruleOf (setGrad s v x) u = ruleOf s u := by
  simp [setGrad, ruleOf_modifyGrad]

theorem gradOf_addGrad {α : Type} [Field α] (s : Store α) (v : Nat) (x : α) (u : Nat) :
    gradOf (addGrad s v x) u = gradOf s u + if u = v ∧ v < s.length then x else 0 := by
  by_cases h1 : u = v
  · subst h1
    by_cases h2 : u < s.length
    · simp [addGrad, gradOf_modifyGrad_self s u _ h2, h2]
    · rw [addGrad, modifyGrad_of_len_le s u _ (le_of_not_lt h2)]
      simp [h2]
  · simp [addGrad, gradOf_modifyGrad_ne s v u _ h1, h1]

theorem gradOf_setGrad {α : Type} [Field α] (s : Store α) (v : Nat) (x : α) (u : Nat) :
    gradOf (setGrad s v x) u = if u = v ∧ v < s.length then x else gradOf s u := by
  by_cases h1 : u = v
  · subst h1
    by_cases h2 : u < s.length
    · simp [setGrad, gradOf_modifyGrad_self s u _ h2, h2]
    · rw [setGrad, modifyGrad_of_len_le s u _ (le_of_not_lt h2)]
      simp [h2]
  · simp [setGrad, gradOf_modifyGrad_ne s v u _ h1, h1]

theorem ruleOf_ne_noop_lt {α : Type} (s : Store α) (m : Nat)
    (h : ruleOf s m ≠ BRule.noop) : m < s.length := by
  by_contra hc
  exact h (ruleOf_of_len_le s m (le_of_not_lt hc))

theorem cList_map_fst {α : Type} [Field α] (s : Store α) (r : BRule α) :
    (cList s r).map Prod.fst = ruleSrcIds r := by
  cases r <;> rfl

@[simp]
theorem length_runRule {α : Type} [Field α] (s : Store α) (r : BRule α) :
    (runRule s r).length = s.length := by
  cases r <;> simp [runRule]

@[simp]
theorem dataOf_runRule {α : Type} [Field α] (s : Store α) (r : BRule α) (u : Nat) :
    dataOf (runRule s r) u = dataOf s u := by
  cases r <;> simp [runRule]

@[simp]
theorem prevOf_runRule {α : Type} [Field α] (s : Store α) (r : BRule α) (u : Nat) :
    prevOf (runRule s r) u = prevOf s u := by
  cases r <;> simp [runRule]

@[simp]
theorem ruleOf_runRule {α : Type} [Field α] (s : Store α) (r : BRule α) (u : Nat) :
    ruleOf (runRule s r) u = ruleOf s u := by
  cases r <;> simp [runRule]

theorem gradOf_runRule_of_notin {α : Type} [Field α] (st : Store α) (r : BRule α) (u : Nat)
    (hu : u ∉ ruleSrcIds r) : gradOf (runRule st r) u = gradOf st u := by
  cases r with
  | noop => rfl
  | addR a b o =>
      simp [ruleSrcIds] at hu
      simp [runRule, gradOf_addGrad, hu.1, hu.2]
  | mulR a b o =>
      simp [ruleSrcIds] at hu
      simp [runRule, gradOf_addGrad, hu.1, hu.2]
  | powR a k o =>
      simp [ruleSrcIds] at hu
      simp [runRule, gradOf_addGrad, hu]
  | tanhR a t o =>
      simp [ruleSrcIds] at hu
      simp [runRule, gradOf_addGrad, hu]
  | expR a o =>
      simp [ruleSrcIds] at hu
      simp [runRule, gradOf_addGrad, hu]

theorem cw_pair {α : Type} [Field α] (s : Store α) (m u a b : Nat) (x y : α)
    (h : cList s (ruleOf s m) = [(a, x), (b, y)]) :
    cw s u m = (if u = a then x else 0) + (if u = b then y else 0) := by
  by_cases h1 : u = a <;> by_cases h2 : u = b
  · simp [cw, edgesInto, h, h1.symm, h2.symm]
  · have h2n : ¬ b = u := fun hh => h2 hh.symm
    simp [cw, edgesInto, h, h1.symm, h2, h2n]
  · have h1n : ¬ a = u := fun hh => h1 hh.symm
    simp [cw, edgesInto, h, h1, h1n, h2.symm]
  · have h1n : ¬ a = u := fun hh => h1 hh.symm
    have h2n : ¬ b = u := fun hh => h2 hh.symm
    simp [cw, edgesInto, h, h1, h1n, h2, h2n]

theorem cw_single {α : Type} [Field α] (s : Store α) (m u a : Nat) (x : α)
    (h : cList s (ruleOf s m) = [(a, x)]) :
    cw s u m = if u = a then x else 0 := by
  by_cases h1 : u = a
  · simp [cw, edgesInto, h, h1.symm]
  · have h1n : ¬ a = u := fun hh => h1 hh.symm
    simp [cw, edgesInto, h, h1, h1n]

/-- The gradient effect of one closure, in closed form: node `u`
gains the total local derivative `cw st u m` times `out.grad` read
before the update (`out` never aliases a target under `nodeWF`). -/
theorem gradOf_runRule {α : Type} [Field α] (st : Store α) (m u : Nat)
    (hm : nodeWF st m) :
    gradOf (runRule st (ruleOf st m)) u = gradOf st u + cw st u m * gradOf st m := by
  obtain ⟨hlt, hsrc, hout⟩ := hm
  cases h : ruleOf st m with
  | noop => simp [runRule, cw, edgesInto, cList, h]
  | addR a b o =>
      have hom : o = m := by rw [h] at hout; simpa [ruleOutId] using hout
      rw [hom] at h
      rw [hom]
      have hmlen : m < st.length := ruleOf_ne_noop_lt st m (by rw [h]; intro hc; cases hc)
      have ham : a < m := hlt a (hsrc a (by rw [h]; simp [ruleSrcIds]))
      have hbm : b < m := hlt b (hsrc b (by rw [h]; simp [ruleSrcIds]))
      rw [cw_pair st m u a b 1 1 (by rw [h]; rfl)]
      simp only [runRule, gradOf_addGrad, length_addGrad]
      have hma : ¬ (m = a) := by omega
      have hmb : ¬ (m = b) := by omega
      have halen : a < st.length := by omega
      have hblen : b < st.length := by omega
      by_cases hua : u = a <;> by_cases hub : u = b
      · have hab : a = b := hua.symm.trans hub
        subst hab
        simp [hua, hma, halen]
        try ring
      · have hab : ¬ a = b := fun hh => hub (hua.trans hh)
        simp [hua, hub, hab, hma, hmb, halen, hblen]
        try ring
      · have hba : ¬ b = a := fun hh => hua (hub.trans hh)
        simp [hua, hub, hba, hma, hmb, halen, hblen]
        try ring
      · simp [hua, hub, hma, hmb, halen, hblen]
  | mulR a b o =>
      have hom : o = m := by rw [h] at hout; simpa [ruleOutId] using hout
      rw [hom] at h
      rw [hom]
      have hmlen : m < st.length := ruleOf_ne_noop_lt st m (by rw [h]; intro hc; cases hc)
      have ham : a < m := hlt a (hsrc a (by rw [h]; simp [ruleSrcIds]))
      have hbm : b < m := hlt b (hsrc b (by rw [h]; simp [ruleSrcIds]))
      rw [cw_pair st m u a b (dataOf st b) (dataOf st a) (by rw [h]; rfl)]
      simp only [runRule, gradOf_addGrad, length_addGrad, dataOf_addGrad]
      have hma : ¬ (m = a) := by omega
      have hmb : ¬ (m = b) := by omega
      have halen : a < st.length := by omega
      have hblen : b < st.length := by omega
      by_cases hua : u = a <;> by_cases hub : u = b
      · have hab : a = b := hua.symm.trans hub
        subst hab
        simp [hua, hma, halen]
        try ring
      · have hab : ¬ a = b := fun hh => hub (hua.trans hh)
        simp [hua, hub, hab, hma, hmb, halen, hblen]
        try ring
      · have hba : ¬ b = a := fun hh => hua (hub.trans hh)
        simp [hua, hub, hba, hma, hmb, halen, hblen]
        try ring
      · simp [hua, hub, hma, hmb, halen, hblen]
  | powR a k o =>
      have hom : o = m := by rw [h] at hout; simpa [ruleOutId] using hout
      rw [hom] at h
      rw [hom]
      have hmlen : m < st.length := ruleOf_ne_noop_lt st m (by rw [h]; intro hc; cases hc)
      have ham : a < m := hlt a (hsrc a (by rw [h]; simp [ruleSrcIds]))
      rw [cw_single st m u a ((k : α) * dataOf st a ^ (k - 1)) (by rw [h]; rfl)]
      simp only [runRule, gradOf_addGrad, length_addGrad]
      have halen : a < st.length := by omega
      by_cases hua : u = a
      · simp [hua, halen]
        try ring
      · simp [hua]
  | tanhR a t o =>
      have hom : o = m := by rw [h] at hout; simpa [ruleOutId] using hout
      rw [hom] at h
      rw [hom]
      have hmlen : m < st.length := ruleOf_ne_noop_lt st m (by rw [h]; intro hc; cases hc)
      have ham : a < m := hlt a (hsrc a (by rw [h]; simp [ruleSrcIds]))
      rw [cw_single st m u a (1 - t ^ 2) (by rw [h]; rfl)]
      simp only [runRule, gradOf_addGrad, length_addGrad]
      have halen : a < st.length := by omega
      by_cases hua : u = a
      · simp [hua, halen]
        try ring
      · simp [hua]
  | expR a o =>
      have hom : o = m := by rw [h] at hout; simpa [ruleOutId] using hout
      rw [hom] at h
      rw [hom]
      have hmlen : m < st.length := ruleOf_ne_noop_lt st m (by rw [h]; intro hc; cases hc)
      have ham : a < m := hlt a (hsrc a (by rw [h]; simp [ruleSrcIds]))
      rw [cw_single st m u a (dataOf st m) (by rw [h]; rfl)]
      simp only [runRule, gradOf_addGrad, length_addGrad]
      have halen : a < st.length := by omega
      by_cases hua : u = a
      · simp [hua, halen]
        try ring
      · simp [hua]

/-! ### Reachability -/

theorem reaches_trans {α : Type} {s : Store α} {v u w : Nat}
    (h1 : Reaches s v u) (h2 : Reaches s u w) : Reaches s v w := by
  induction h1 with
  | refl => exact h2
  | step hx _ ih => exact Reaches.step hx (ih h2)

theorem reaches_le {α : Type} {s : Store α} (hwf : storeWF s) {v w : Nat}
    (h : Reaches s v w) : w ≤ v := by
  induction h with
  | refl v => exact le_refl v
  | step hu _ ih =>
      rename_i v' u' w' _
      by_cases hv : v' < s.length
      · exact le_of_lt (lt_of_le_of_lt ih ((hwf v' hv).1 u' hu))
      · rw [prevOf_of_len_le s v' (le_of_not_lt hv)] at hu
        cases hu

theorem reaches_closed {α : Type} (s : Store α) (topo : List Nat)
    (hcl : ∀ m ∈ topo, ∀ u ∈ prevOf s m, u ∈ topo) :
    ∀ v w, Reaches s v w → v ∈ topo → w ∈ topo := by
  intro v w hr
  induction hr with
  | refl v => exact id
  | step hu _ ih => intro hv; exact ih (hcl _ hv _ hu)

/-! ### Correctness of the depth-first topological sort -/

/-- Full specification of `build_topo`: on a well-formed arena, a call
on `v` extends the output by exactly the nodes reachable from `v` that
were not already black, keeps the state invariant, blackens `v`, and
blackens everything reachable from `v` — provided no gray node (visited
but not yet output) is reachable from `v`, which holds on every call
because gray nodes are exactly the ancestors on the recursion stack. -/
theorem dfsAux_spec {α : Type} (s : Store α) (hwf : storeWF s) :
    ∀ fuel v st,
      v < s.length → v < fuel →
      dfsInv s st.1 st.2 →
      (∀ g ∈ st.1, g ∉ st.2 → ¬ Reaches s v g) →
      (∃ d, (dfsAux s fuel v st).2 = st.2 ++ d) ∧
      dfsInv s (dfsAux s fuel v st).1 (dfsAux s fuel v st).2 ∧
      (∀ x, x ∈ (dfsAux s fuel v st).1 ↔ x ∈ st.1 ∨ x ∈ (dfsAux s fuel v st).2) ∧
      v ∈ (dfsAux s fuel v st).2 ∧
      (∀ w, Reaches s v w → w ∈ (dfsAux s fuel v st).2) ∧
      (∀ x ∈ (dfsAux s fuel v st).2, x ∈ st.2 ∨ Reaches s v x) := by
  intro fuel
  induction fuel with
  | zero => intro v st hv hf; exact absurd hf (by omega)
  | succ fuel ih =>
      intro v st hv hf hinv hgray
      by_cases hvis : v ∈ st.1
      · have hres : dfsAux s (fuel + 1) v st = st := by
          simp [dfsAux, hvis]
        rw [hres]
        obtain ⟨hnd, hsub, hlen, hcl, hpw⟩ := hinv
        have hvtopo : v ∈ st.2 := by
          by_contra hn
          exact hgray v hvis hn (Reaches.refl v)
        refine ⟨⟨[], by simp⟩, ⟨hnd, hsub, hlen, hcl, hpw⟩, ?_, hvtopo, ?_, ?_⟩
        · intro x
          exact ⟨Or.inl, fun hx => hx.elim id (fun h2 => hsub x h2)⟩
        · intro w hw
          exact reaches_closed s st.2 hcl v w hw hvtopo
        · intro x hx
          exact Or.inl hx
      · have hres : dfsAux s (fuel + 1) v st =
            (((prevOf s v).foldl (fun acc c => dfsAux s fuel c acc) (v :: st.1, st.2)).1,
             ((prevOf s v).foldl (fun acc c => dfsAux s fuel c acc) (v :: st.1, st.2)).2
               ++ [v]) := by
          simp [dfsAux, hvis]
        rw [hres]
        have hfold : ∀ cs : List Nat, (∀ c ∈ cs, c ∈ prevOf s v) →
            ∀ stp : List Nat × List Nat,
              dfsInv s stp.1 stp.2 → v ∈ stp.1 → v ∉ stp.2 →
              (∀ g ∈ stp.1, g ∉ stp.2 → g = v ∨ ¬ Reaches s v g) →
              (∃ d, (cs.foldl (fun acc c => dfsAux s fuel c acc) stp).2 = stp.2 ++ d) ∧
              dfsInv s (cs.foldl (fun acc c => dfsAux s fuel c acc) stp).1
                (cs.foldl (fun acc c => dfsAux s fuel c acc) stp).2 ∧
              (∀ x, x ∈ (cs.foldl (fun acc c => dfsAux s fuel c acc) stp).1 ↔
                x ∈ stp.1 ∨ x ∈ (cs.foldl (fun acc c => dfsAux s fuel c acc) stp).2) ∧
              v ∈ (cs.foldl (fun acc c => dfsAux s fuel c acc) stp).1 ∧
              v ∉ (cs.foldl (fun acc c => dfsAux s fuel c acc) stp).2 ∧
              (∀ g ∈ (cs.foldl (fun acc c => dfsAux s fuel c acc) stp).1,
                g ∉ (cs.foldl (fun acc c => dfsAux s fuel c acc) stp).2 →
                g = v ∨ ¬ Reaches s v g) ∧
              (∀ c ∈ cs, ∀ w, Reaches s c w →
                w ∈ (cs.foldl (fun acc c => dfsAux s fuel c acc) stp).2) ∧
              (∀ x ∈ (cs.foldl (fun acc c => dfsAux s fuel c acc) stp).2,
                x ∈ stp.2 ∨ ∃ c ∈ cs, Reaches s c x) := by
          intro cs
          induction cs with
          | nil =>
              intro _ stp hinv1 hvv hvt hgray1
              refine ⟨⟨[], by simp⟩, hinv1, ?_, hvv, hvt, hgray1, ?_, ?_⟩
              · intro x
                exact ⟨Or.inl, fun hx => hx.elim id (fun h2 => hinv1.2.1 x h2)⟩
              · intro c hc
                cases hc
              · intro x hx
                exact Or.inl hx
          | cons c cs ihc =>
              intro hcs stp hinv1 hvv hvt hgray1
              have hcprev : c ∈ prevOf s v := hcs c (by simp)
              have hcv : c < v := (hwf v hv).1 c hcprev
              have hclen : c < s.length := by omega
              have hcf : c < fuel := by omega
              have hgrayc : ∀ g ∈ stp.1, g ∉ stp.2 → ¬ Reaches s c g := by
                intro g hg hgt hrc
                rcases hgray1 g hg hgt with hgv | hnr
                · subst hgv
                  have := reaches_le hwf hrc
                  omega
                · exact hnr (Reaches.step hcprev hrc)
              obtain ⟨⟨d1, hd1⟩, hinv2, hiff2, hmemc2, hcomp2, hsound2⟩ :=
                ih c stp hclen hcf hinv1 hgrayc
              have hvv1 : v ∈ (dfsAux s fuel c stp).1 := (hiff2 v).2 (Or.inl hvv)
              have hvt1 : v ∉ (dfsAux s fuel c stp).2 := by
                intro hvin
                rcases hsound2 v hvin with h1 | h1
                · exact hvt h1
                · have := reaches_le hwf h1
                  omega
              have hgray2 : ∀ g ∈ (dfsAux s fuel c stp).1,
                  g ∉ (dfsAux s fuel c stp).2 → g = v ∨ ¬ Reaches s v g := by
                intro g hg hgt
                rcases (hiff2 g).1 hg with h1 | h1
                · refine hgray1 g h1 (fun hx => hgt ?_)
                  rw [hd1]
                  exact List.mem_append_left _ hx
                · exact absurd h1 hgt
              obtain ⟨⟨d2, hd2⟩, hinv3, hiff3, hvv3, hvt3, hgray3, hcomp3, hsound3⟩ :=
                ihc (fun x hx => hcs x (by simp [hx])) (dfsAux s fuel c stp)
                  hinv2 hvv1 hvt1 hgray2
              rw [List.foldl_cons]
              refine ⟨⟨d1 ++ d2, by rw [hd2, hd1, List.append_assoc]⟩, hinv3, ?_, hvv3,
                hvt3, hgray3, ?_, ?_⟩
              · intro x
                constructor
                · intro hx
                  rcases (hiff3 x).1 hx with h1 | h1
                  · rcases (hiff2 x).1 h1 with h2 | h2
                    · exact Or.inl h2
                    · refine Or.inr ?_
                      rw [hd2]
                      exact List.mem_append_left _ h2
                  · exact Or.inr h1
                · intro hx
                  rcases hx with h1 | h1
                  · exact (hiff3 x).2 (Or.inl ((hiff2 x).2 (Or.inl h1)))
                  · exact hinv3.2.1 x h1
              · intro e he w hw
                rcases List.mem_cons.1 he with rfl | hecs
                · have hmem := hcomp2 w hw
                  rw [hd2]
                  exact List.mem_append_left _ hmem
                · exact hcomp3 e hecs w hw
              · intro x hx
                rcases hsound3 x hx with h1 | h1
                · rcases hsound2 x h1 with h2 | h2
                  · exact Or.inl h2
                  · exact Or.inr ⟨c, by simp, h2⟩
                · obtain ⟨e, he, hre⟩ := h1
                  exact Or.inr ⟨e, by simp [he], hre⟩
        have hvt : v ∉ st.2 := fun hx => hvis (hinv.2.1 v hx)
        have hinv1 : dfsInv s (v :: st.1) st.2 := by
          obtain ⟨hnd, hsub, hlen, hcl, hpw⟩ := hinv
          exact ⟨hnd, fun x hx => List.mem_cons_of_mem v (hsub x hx), hlen, hcl, hpw⟩
        have hgray1 : ∀ g ∈ v :: st.1, g ∉ st.2 → g = v ∨ ¬ Reaches s v g := by
          intro g hg hgt
          rcases List.mem_cons.1 hg with rfl | hgv
          · exact Or.inl rfl
          · exact Or.inr (hgray g hgv hgt)
        obtain ⟨⟨d, hd⟩, hinvF, hiffF, hvvF, hvtF, hgrayF, hcompF, hsoundF⟩ :=
          hfold (prevOf s v) (fun c hc => hc) (v :: st.1, st.2) hinv1 (by simp) hvt hgray1
        refine ⟨⟨d ++ [v], by rw [hd, List.append_assoc]⟩, ?_, ?_, by simp, ?_, ?_⟩
        · obtain ⟨hnd, hsub, hlen, hcl, hpw⟩ := hinvF
          refine ⟨?_, ?_, ?_, ?_, ?_⟩
          · simp [List.nodup_append, hnd, hvtF]
          · intro x hx
            rcases List.mem_append.1 hx with h1 | h1
            · exact hsub x h1
            · simp at h1
              subst h1
              exact hvvF
          · intro x hx
            rcases List.mem_append.1 hx with h1 | h1
            · exact hlen x h1
            · simp at h1
              subst h1
              exact hv
          · intro m hm u hu
            rcases List.mem_append.1 hm with h1 | h1
            · exact List.mem_append_left _ (hcl m h1 u hu)
            · simp at h1
              subst h1
              exact List.mem_append_left _ (hcompF u hu u (Reaches.refl u))
          · rw [List.pairwise_append]
            refine ⟨hpw, by simp, ?_⟩
            intro a ha b hb
            simp at hb
            rw [hb]
            intro hvin
            rcases hsoundF a ha with h1 | h1
            · exact hvt (hinv.2.2.2.1 a h1 v hvin)
            · obtain ⟨c, hc, hrca⟩ := h1
              have h2 : a ≤ c := reaches_le hwf hrca
              have h3 : c < v := (hwf v hv).1 c hc
              have h4 : v < a := by
                by_cases halen : a < s.length
                · exact (hwf a halen).1 v hvin
                · rw [prevOf_of_len_le s a (le_of_not_lt halen)] at hvin
                  cases hvin
              omega
        · intro x
          constructor
          · intro hx
            rcases (hiffF x).1 hx with h1 | h1
            · rcases List.mem_cons.1 h1 with rfl | h2
              · exact Or.inr (by simp)
              · exact Or.inl h2
            · exact Or.inr (List.mem_append_left _ h1)
          · intro hx
            rcases hx with h1 | h1
            · exact (hiffF x).2 (Or.inl (List.mem_cons_of_mem v h1))
            · rcases List.mem_append.1 h1 with h2 | h2
              · exact (hiffF x).2 (Or.inr h2)
              · simp at h2
                subst h2
                exact hvvF
        · intro w hw
          cases hw with
          | refl => simp
          | step hu hr =>
              exact List.mem_append_left _ (hcompF _ hu w hr)
        · intro x hx
          rcases List.mem_append.1 hx with h1 | h1
          · rcases hsoundF x h1 with h2 | h2
            · exact Or.inl h2
            · obtain ⟨c, hc, hrc⟩ := h2
              exact Or.inr (Reaches.step hc hrc)
          · simp at h1
            rw [h1]
            exact Or.inr (Reaches.refl v)

/-- The topological sequence of `backward(root)`: duplicate-free,
contains exactly the nodes reachable from `root`, is closed under
predecessors, never lists a predecessor after a node, and stays in
range. -/
theorem topoOf_spec {α : Type} (s : Store α) (root : Nat) (hwf : storeWF s)
    (hr : root < s.length) :
    (topoOf s root).Nodup ∧
    (∀ n, n ∈ topoOf s root ↔ Reaches s root n) ∧
    (∀ m ∈ topoOf s root, ∀ u ∈ prevOf s m, u ∈ topoOf s root) ∧
    (topoOf s root).Pairwise (fun p q => q ∉ prevOf s p) ∧
    (∀ n ∈ topoOf s root, n < s.length) := by
  have hinv0 : dfsInv s ([] : List Nat) ([] : List Nat) := by
    refine ⟨List.nodup_nil, ?_, ?_, ?_, List.Pairwise.nil⟩ <;> intro x hx <;> cases hx
  have hgray0 : ∀ g ∈ ([] : List Nat), g ∉ ([] : List Nat) → ¬ Reaches s root g := by
    intro g hg
    cases hg
  obtain ⟨⟨d, hd⟩, hinvF, hiffF, hvF, hcompF, hsoundF⟩ :=
    dfsAux_spec s hwf (root + 1) root ([], []) hr (by omega) hinv0 hgray0
  refine ⟨hinvF.1, ?_, hinvF.2.2.2.1, hinvF.2.2.2.2, hinvF.2.2.1⟩
  intro n
  constructor
  · intro hn
    rcases hsoundF n hn with h1 | h1
    · cases h1
    · exact h1
  · intro hn
    exact hcompF n hn

/-- Post-order placement: in any splitting of the sequence at a node
`m`, every predecessor of `m` lies strictly earlier. -/
theorem topoOf_sorted {α : Type} (s : Store α) (root : Nat) (hwf : storeWF s)
    (hr : root < s.length) :
    ∀ l1 m l2, topoOf s root = l1 ++ m :: l2 → ∀ u ∈ prevOf s m, u ∈ l1 := by
  obtain ⟨hnd, hmem, hcl, hpw, hlen⟩ := topoOf_spec s root hwf hr
  intro l1 m l2 hsplit u hu
  have hm : m ∈ topoOf s root := by rw [hsplit]; simp
  have hut : u ∈ topoOf s root := hcl m hm u hu
  have hum : u < m := (hwf m (hlen m hm)).1 u hu
  rw [hsplit] at hut
  rcases List.mem_append.1 hut with h1 | h1
  · exact h1
  · rcases List.mem_cons.1 h1 with rfl | h2
    · omega
    · rw [hsplit, List.pairwise_append] at hpw
      have := (List.pairwise_cons.1 hpw.2.1).1 u h2
      exact absurd hu this

/-! ### The reversed execution pass -/

@[simp]
theorem length_runList {α : Type} [Field α] (s : Store α) (l : List Nat) :
    (runList s l).length = s.length := by
  induction l generalizing s with
  | nil => rfl
  | cons m l ihl => simp only [runList, List.foldl_cons] at *; rw [ihl]; simp

@[simp]
theorem dataOf_runList {α : Type} [Field α] (s : Store α) (l : List Nat) (u : Nat) :
    dataOf (runList s l) u = dataOf s u := by
  induction l generalizing s with
  | nil => rfl
  | cons m l ihl => simp only [runList, List.foldl_cons] at *; rw [ihl]; simp

@[simp]
theorem prevOf_runList {α : Type} [Field α] (s : Store α) (l : List Nat) (u : Nat) :
    prevOf (runList s l) u = prevOf s u := by
  induction l generalizing s with
  | nil => rfl
  | cons m l ihl => simp only [runList, List.foldl_cons] at *; rw [ihl]; simp

@[simp]
theorem ruleOf_runList {α : Type} [Field α] (s : Store α) (l : List Nat) (u : Nat) :
    ruleOf (runList s l) u = ruleOf s u := by
  induction l generalizing s with
  | nil => rfl
  | cons m l ihl => simp only [runList, List.foldl_cons] at *; rw [ihl]; simp

/-- A node that is a gradient target of no executed rule keeps its
gradient through the whole pass. -/
theorem gradOf_runList_of_notin {α : Type} [Field α] (s : Store α) (l : List Nat) (u : Nat)
    (h : ∀ m ∈ l, u ∉ ruleSrcIds (ruleOf s m)) :
    gradOf (runList s l) u = gradOf s u := by
  induction l generalizing s with
  | nil => rfl
  | cons m l ihl =>
      have h1 : runList s (m :: l) = runList (runRule s (ruleOf s m)) l := by
        simp [runList, List.foldl_cons]
      rw [h1, ihl]
      · exact gradOf_runRule_of_notin s (ruleOf s m) u (h m (by simp))
      · intro x hx
        rw [ruleOf_runRule]
        exact h x (by simp [hx])

/-! ### The flow recurrence -/

theorem flowAux_of_len_le {α : Type} [Field α] (s : Store α) (T : List Nat) (g : Nat → α)
    (v : Nat) (h : s.length ≤ v) : ∀ fuel, flowAux s T g fuel v = g v := by
  intro fuel
  cases fuel with
  | zero => rfl
  | succ fuel =>
      simp only [flowAux]
      rw [Finset.sum_eq_zero, add_zero]
      intro m hm
      have hmr := Finset.mem_range.1 hm
      have hc : ¬ (v < m ∧ m ∈ T) := fun hc => absurd hc.1 (by omega)
      simp [hc]

theorem flowAux_stable {α : Type} [Field α] (s : Store α) (T : List Nat) (g : Nat → α) :
    ∀ f1 f2 v, s.length - v ≤ f1 → s.length - v ≤ f2 →
      flowAux s T g f1 v = flowAux s T g f2 v := by
  intro f1
  induction f1 with
  | zero =>
      intro f2 v h1 h2
      have hv : s.length ≤ v := by omega
      rw [flowAux_of_len_le s T g v hv f2]
      rfl
  | succ f1 ih =>
      intro f2 v h1 h2
      by_cases hv : s.length ≤ v
      · rw [flowAux_of_len_le s T g v hv (f1 + 1), flowAux_of_len_le s T g v hv f2]
      · have hvlen : v < s.length := not_le.1 hv
        cases f2 with
        | zero => exact absurd h2 (by omega)
        | succ f2 =>
            simp only [flowAux]
            refine congrArg (fun z => g v + z) ?_
            refine Finset.sum_congr rfl ?_
            intro m hm
            have hmr := Finset.mem_range.1 hm
            by_cases hc : v < m ∧ m ∈ T
            · have e := ih f2 m (by omega) (by omega)
              simp only [hc, if_true, e]
            · simp [hc]

/-- The settled flow satisfies its own recurrence at full fuel. -/
theorem flowAux_fixed {α : Type} [Field α] (s : Store α) (T : List Nat) (g : Nat → α)
    (hlen : 1 ≤ s.length) (v : Nat) :
    flowAux s T g s.length v =
      g v + Finset.sum (Finset.range s.length)
        (fun m => if v < m ∧ m ∈ T then cw s v m * flowAux s T g s.length m else 0) := by
  obtain ⟨L, hL⟩ : ∃ L, s.length = L + 1 := ⟨s.length - 1, by omega⟩
  conv_lhs => rw [hL]
  simp only [flowAux]
  refine congrArg (fun z => g v + z) ?_
  refine Finset.sum_congr rfl ?_
  intro m hm
  have hmr := Finset.mem_range.1 hm
  by_cases hc : v < m ∧ m ∈ T
  · have e : flowAux s T g L m = flowAux s T g s.length m :=
      flowAux_stable s T g L s.length m (by omega) (by omega)
    simp only [hc, if_true, e]
  · simp [hc]

/-! ### Congruence of contribution data under gradient-only updates -/

theorem cList_congr {α : Type} [Field α] (s t : Store α)
    (hdata : ∀ u, dataOf t u = dataOf s u) (r : BRule α) : cList t r = cList s r := by
  cases r <;> simp [cList, hdata]

theorem cw_congr {α : Type} [Field α] (s t : Store α)
    (hdata : ∀ u, dataOf t u = dataOf s u) (hrule : ∀ u, ruleOf t u = ruleOf s u)
    (u m : Nat) : cw t u m = cw s u m := by
  simp [cw, edgesInto, hrule, cList_congr s t hdata]

theorem cw_eq_zero_of_notin {α : Type} [Field α] (s : Store α) (u m : Nat)
    (h : u ∉ ruleSrcIds (ruleOf s m)) : cw s u m = 0 := by
  have hnil : (cList s (ruleOf s m)).filter (fun p => p.1 == u) = [] := by
    rw [List.filter_eq_nil_iff]
    intro p hp
    have : p.1 ∈ ruleSrcIds (ruleOf s m) := by
      rw [← cList_map_fst s (ruleOf s m)]
      exact List.mem_map_of_mem Prod.fst hp
    simp only [beq_iff_eq]
    intro he
    rw [he] at this
    exact h this
  simp [cw, edgesInto, hnil]

/-- On a well-formed arena a nonzero contribution target is a recorded
predecessor (hence strictly below the node). -/
theorem src_mem_prev {α : Type} (s : Store α) (hwf : storeWF s) (u m : Nat)
    (h : u ∈ ruleSrcIds (ruleOf s m)) : u ∈ prevOf s m ∧ u < m := by
  by_cases hm : m < s.length
  · have h1 := (hwf m hm).2.1 u h
    exact ⟨h1, (hwf m hm).1 u h1⟩
  · rw [ruleOf_of_len_le s m (le_of_not_lt hm)] at h
    cases h

theorem nodeWF_congr {α : Type} (s t : Store α)
    (hrule : ∀ u, ruleOf t u = ruleOf s u) (hprev : ∀ u, prevOf t u = prevOf s u)
    (m : Nat) (h : nodeWF s m) : nodeWF t m := by
  obtain ⟨h1, h2, h3⟩ := h
  refine ⟨?_, ?_, ?_⟩
  · intro u hu
    rw [hprev] at hu
    exact h1 u hu
  · intro u hu
    rw [hrule] at hu
    rw [hprev]
    exact h2 u hu
  · rw [hrule]
    exact h3

/-! ### What the backward pass computes -/

/-- The backward pass settles every visited node's gradient at its
flow value and leaves every unvisited node's gradient untouched. -/
theorem backward_grads {α : Type} [Field α] (s : Store α) (root : Nat)
    (hwf : storeWF s) (hr : root < s.length) :
    ∀ v, gradOf (backward s root) v =
      if v ∈ topoOf s root then flowOf s root v else gradOf s v := by
  obtain ⟨hnd, hmem, hcl, hpw, hlenT⟩ := topoOf_spec s root hwf hr
  have hsorted := topoOf_sorted s root hwf hr
  have hrevnd : (topoOf s root).reverse.Nodup := List.nodup_reverse.2 hnd
  have main : ∀ l2 l1 (st : Store α),
      (topoOf s root).reverse = l1 ++ l2 →
      st.length = s.length →
      (∀ u, dataOf st u = dataOf s u) →
      (∀ u, ruleOf st u = ruleOf s u) →
      (∀ u, prevOf st u = prevOf s u) →
      (∀ u ∈ l1, gradOf st u = flowOf s root u) →
      (∀ u, u ∉ l1 → gradOf st u = gradOf (setGrad s root 1) u +
        Finset.sum l1.toFinset (fun m => cw s u m * flowOf s root m)) →
      (∀ u ∈ l1 ++ l2, gradOf (runList st l2) u = flowOf s root u) ∧
      (∀ u, u ∉ l1 ++ l2 → gradOf (runList st l2) u = gradOf (setGrad s root 1) u +
        Finset.sum (l1 ++ l2).toFinset (fun m => cw s u m * flowOf s root m)) := by
    intro l2
    induction l2 with
    | nil =>
        intro l1 st hsplit hlen hdata hrule hprev ha hb
        simp only [List.append_nil]
        exact ⟨ha, hb⟩
    | cons v0 l2' ihl =>
        intro l1 st hsplit hlen hdata hrule hprev ha hb
        have hv0rev : v0 ∈ (topoOf s root).reverse := by
          rw [hsplit]; simp
        have hv0T : v0 ∈ topoOf s root := List.mem_reverse.1 hv0rev
        have hv0len : v0 < s.length := hlenT v0 hv0T
        have hndsplit := hrevnd
        rw [hsplit] at hndsplit
        rcases List.nodup_append.1 hndsplit with ⟨hnd1, hnd2, hdisj⟩
        have hv0l1 : v0 ∉ l1 := fun hin => hdisj hin (by simp)
        have hv0l2 : v0 ∉ l2' := (List.nodup_cons.1 hnd2).1
        have hTsplit : topoOf s root = l2'.reverse ++ v0 :: l1.reverse := by
          have h0 : topoOf s root = (l1 ++ v0 :: l2').reverse := by
            rw [← hsplit, List.reverse_reverse]
          rw [h0, List.reverse_append, List.reverse_cons, List.append_assoc,
            List.singleton_append]
        have hord1 : ∀ m, v0 ∈ prevOf s m → m ∈ topoOf s root → m ∈ l1 := by
          intro m hvp hmT
          have hm_len : m < s.length := hlenT m hmT
          have hvm : v0 < m := (hwf m hm_len).1 v0 hvp
          rw [hTsplit] at hmT
          rcases List.mem_append.1 hmT with h1 | h1
          · obtain ⟨A, B, hAB⟩ := List.append_of_mem h1
            have hTs2 : topoOf s root = A ++ m :: (B ++ v0 :: l1.reverse) := by
              rw [hTsplit, hAB, List.append_assoc, List.cons_append]
            have hin := hsorted A m (B ++ v0 :: l1.reverse) hTs2 v0 hvp
            have hvrev : v0 ∈ l2'.reverse := by
              rw [hAB]; exact List.mem_append_left _ hin
            exact absurd (List.mem_reverse.1 hvrev) hv0l2
          · rcases List.mem_cons.1 h1 with h2 | h2
            · omega
            · exact List.mem_reverse.1 h2
        have hord2 : ∀ u ∈ l1, u ∉ prevOf s v0 := by
          intro u hu hup
          have hin := hsorted l2'.reverse v0 l1.reverse hTsplit u hup
          exact hdisj hu (by simp [List.mem_reverse.1 hin])
        have hkey : gradOf st v0 = flowOf s root v0 := by
          rw [hb v0 hv0l1]
          show _ = flowAux s (topoOf s root) (gradOf (setGrad s root 1)) s.length v0
          rw [flowAux_fixed s (topoOf s root) (gradOf (setGrad s root 1)) (by omega) v0]
          refine congrArg (fun z => gradOf (setGrad s root 1) v0 + z) ?_
          have hsub1 : l1.toFinset ⊆ Finset.range s.length := by
            intro m hmf
            have hm1 : m ∈ l1 := List.mem_toFinset.1 hmf
            have hmT : m ∈ topoOf s root :=
              List.mem_reverse.1 (by rw [hsplit]; exact List.mem_append_left _ hm1)
            exact Finset.mem_range.2 (hlenT m hmT)
          have hzero : ∀ m ∈ Finset.range s.length, m ∉ l1.toFinset →
              (if v0 < m ∧ m ∈ topoOf s root
                then cw s v0 m * flowAux s (topoOf s root)
                  (gradOf (setGrad s root 1)) s.length m
                else 0) = 0 := by
            intro m hmr hml
            by_cases hc : v0 < m ∧ m ∈ topoOf s root
            · have hz : cw s v0 m = 0 := by
                by_contra hn
                have hsrc : v0 ∈ ruleSrcIds (ruleOf s m) := by
                  by_contra hn2
                  exact hn (cw_eq_zero_of_notin s v0 m hn2)
                obtain ⟨hvp, _⟩ := src_mem_prev s hwf v0 m hsrc
                exact hml (List.mem_toFinset.2 (hord1 m hvp hc.2))
              simp [hc, hz]
            · simp [hc]
          have e1 := (Finset.sum_subset hsub1 hzero).symm
          rw [e1]
          refine Finset.sum_congr rfl ?_
          intro m hmf
          have hm1 : m ∈ l1 := List.mem_toFinset.1 hmf
          have hmT : m ∈ topoOf s root :=
            List.mem_reverse.1 (by rw [hsplit]; exact List.mem_append_left _ hm1)
          by_cases hz : cw s v0 m = 0
          · by_cases hc : v0 < m ∧ m ∈ topoOf s root
            · simp [hc, hz]
            · simp [hc, hz]
          · have hsrc : v0 ∈ ruleSrcIds (ruleOf s m) := by
              by_contra hn2
              exact hz (cw_eq_zero_of_notin s v0 m hn2)
            obtain ⟨hvp, hvm⟩ := src_mem_prev s hwf v0 m hsrc
            have hc : v0 < m ∧ m ∈ topoOf s root := ⟨hvm, hmT⟩
            simp [hc, flowOf]
        have hstep : runList st (v0 :: l2') = runList (runRule st (ruleOf st v0)) l2' := by
          simp [runList, List.foldl_cons]
        rw [hstep]
        have hnwf : nodeWF st v0 := nodeWF_congr s st hrule hprev v0 (hwf v0 hv0len)
        have hgr : ∀ u, gradOf (runRule st (ruleOf st v0)) u
            = gradOf st u + cw s u v0 * flowOf s root v0 := by
          intro u
          rw [gradOf_runRule st v0 u hnwf, hkey, cw_congr s st hdata hrule]
        have hsplit' : (topoOf s root).reverse = (l1 ++ [v0]) ++ l2' := by
          rw [hsplit, List.append_assoc, List.singleton_append]
        have ha' : ∀ u ∈ l1 ++ [v0],
            gradOf (runRule st (ruleOf st v0)) u = flowOf s root u := by
          intro u hu
          rw [hgr u]
          rcases List.mem_append.1 hu with h1 | h1
          · have hz : cw s u v0 = 0 := by
              by_contra hn
              have hsrc : u ∈ ruleSrcIds (ruleOf s v0) := by
                by_contra hn2
                exact hn (cw_eq_zero_of_notin s u v0 hn2)
              obtain ⟨hup, _⟩ := src_mem_prev s hwf u v0 hsrc
              exact hord2 u h1 hup
            rw [ha u h1, hz]
            ring
          · simp only [List.mem_singleton] at h1
            rw [h1]
            have hz : cw s v0 v0 = 0 := by
              by_contra hn
              have hsrc : v0 ∈ ruleSrcIds (ruleOf s v0) := by
                by_contra hn2
                exact hn (cw_eq_zero_of_notin s v0 v0 hn2)
              obtain ⟨_, hlt2⟩ := src_mem_prev s hwf v0 v0 hsrc
              omega
            rw [hkey, hz]
            ring
        have hb' : ∀ u, u ∉ l1 ++ [v0] →
            gradOf (runRule st (ruleOf st v0)) u = gradOf (setGrad s root 1) u +
              Finset.sum (l1 ++ [v0]).toFinset
                (fun m => cw s u m * flowOf s root m) := by
          intro u hu
          have hul1 : u ∉ l1 := fun h => hu (List.mem_append_left _ h)
          rw [hgr u, hb u hul1]
          have htf : (l1 ++ [v0]).toFinset = insert v0 l1.toFinset := by
            ext x
            simp [or_comm]
          rw [htf, Finset.sum_insert (fun h => hv0l1 (List.mem_toFinset.1 h))]
          ring
        have hres := ihl (l1 ++ [v0]) (runRule st (ruleOf st v0)) hsplit'
          (by rw [length_runRule]; exact hlen)
          (fun u => by rw [dataOf_runRule]; exact hdata u)
          (fun u => by rw [ruleOf_runRule]; exact hrule u)
          (fun u => by rw [prevOf_runRule]; exact hprev u)
          ha' hb'
        rw [List.append_assoc, List.singleton_append] at hres
        exact hres
  have happ := main (topoOf s root).reverse [] (setGrad s root 1) (by simp)
    (by simp) (fun u => by simp) (fun u => by simp) (fun u => by simp)
    (by intro u hu; cases hu)
    (by intro u _; simp)
  intro v
  have hback : backward s root = runList (setGrad s root 1) (topoOf s root).reverse := rfl
  by_cases hvT : v ∈ topoOf s root
  · rw [if_pos hvT, hback]
    exact happ.1 v (by simp [hvT])
  · rw [if_neg hvT, hback]
    have h2 := happ.2 v (by simp [List.mem_reverse]; exact hvT)
    rw [h2]
    have hz : Finset.sum (([] ++ (topoOf s root).reverse).toFinset)
        (fun m => cw s v m * flowOf s root m) = 0 := by
      apply Finset.sum_eq_zero
      intro m hmf
      have hmT : m ∈ topoOf s root := by
        have h3 := List.mem_toFinset.1 hmf
        simp only [List.nil_append, List.mem_reverse] at h3
        exact h3
      have hz2 : cw s v m = 0 := by
        by_contra hn
        have hsrc : v ∈ ruleSrcIds (ruleOf s m) := by
          by_contra hn2
          exact hn (cw_eq_zero_of_notin s v m hn2)
        obtain ⟨hvp, _⟩ := src_mem_prev s hwf v m hsrc
        exact hvT (hcl m hmT v hvp)
      rw [hz2, zero_mul]
    rw [hz, add_zero]
    have hvroot : v ≠ root := fun h => hvT (h ▸ (hmem root).2 (Reaches.refl root))
    rw [gradOf_setGrad]
    simp [hvroot]

/-! ### Sum-over-paths form of the flow -/

theorem sum_map_flatMap {α : Type} [Field α] {β γ : Type} (l : List β)
    (f : β → List γ) (g : γ → α) :
    ((l.flatMap f).map g).sum = (l.map (fun x => ((f x).map g).sum)).sum := by
  induction l with
  | nil => rfl
  | cons x l ihx =>
      simp only [List.flatMap_cons, List.map_append, List.sum_append, List.map_cons,
        List.sum_cons, ihx]

theorem sum_list_range {α : Type} [Field α] (n : Nat) (f : Nat → α) :
    ((List.range n).map f).sum = Finset.sum (Finset.range n) f := by
  induction n with
  | zero => simp
  | succ n ihn =>
      rw [List.range_succ, List.map_append, List.sum_append, Finset.sum_range_succ, ihn]
      simp

theorem flatMap_nil_of {β γ : Type} (l : List β) (f : β → List γ)
    (h : ∀ x ∈ l, f x = []) : l.flatMap f = [] := by
  induction l with
  | nil => rfl
  | cons x l ihx =>
      rw [List.flatMap_cons, h x (by simp), List.nil_append]
      exact ihx (fun y hy => h y (by simp [hy]))

theorem chunk_sum {α : Type} [Field α] (m : Nat) (E : List α) (P : List (List (Nat × α))) :
    ((E.flatMap (fun w => P.map (fun p => (m, w) :: p))).map pathWeight).sum
      = E.sum * (P.map pathWeight).sum := by
  rw [sum_map_flatMap]
  have hin : ∀ w : α, ((P.map (fun p => (m, w) :: p)).map pathWeight).sum
      = w * (P.map pathWeight).sum := by
    intro w
    rw [List.map_map]
    have he : pathWeight ∘ (fun p : List (Nat × α) => (m, w) :: p)
        = fun p => w * pathWeight p := by
      funext p
      simp [pathWeight]
    rw [he]
    exact List.sum_map_mul_left P pathWeight w
  rw [List.map_congr_left (fun w _ => hin w)]
  have h2 := List.sum_map_mul_right E id ((P.map pathWeight).sum)
  simpa using h2

theorem edgesInto_nil_of_notin {α : Type} [Field α] (s : Store α) (u m : Nat)
    (h : u ∉ ruleSrcIds (ruleOf s m)) : edgesInto s u m = [] := by
  have hnil : (cList s (ruleOf s m)).filter (fun p => p.1 == u) = [] := by
    rw [List.filter_eq_nil_iff]
    intro p hp
    have hps : p.1 ∈ ruleSrcIds (ruleOf s m) := by
      rw [← cList_map_fst s (ruleOf s m)]
      exact List.mem_map_of_mem Prod.fst hp
    simp only [beq_iff_eq]
    intro he
    rw [he] at hps
    exact h hps
  simp [edgesInto, hnil]

/-- A node with no path to the root has no recorded paths at all. -/
theorem pathsAux_nil {α : Type} [Field α] (s : Store α) (root : Nat) (hwf : storeWF s) :
    ∀ fuel v, ¬ Reaches s root v → pathsAux s root fuel v = [] := by
  intro fuel
  induction fuel with
  | zero =>
      intro v hv
      have hvr : v ≠ root := fun h => hv (by rw [h]; exact Reaches.refl root)
      simp [pathsAux, hvr]
  | succ fuel ih =>
      intro v hv
      have hvr : v ≠ root := fun h => hv (by rw [h]; exact Reaches.refl root)
      simp only [pathsAux, hvr, if_false, List.nil_append]
      apply flatMap_nil_of
      intro m hm
      by_cases hvm : v < m
      · rw [if_pos hvm]
        by_cases hrm : Reaches s root m
        · have hsrc : v ∉ ruleSrcIds (ruleOf s m) := by
            intro hs
            obtain ⟨hvp, _⟩ := src_mem_prev s hwf v m hs
            exact hv (reaches_trans hrm (Reaches.step hvp (Reaches.refl v)))
          rw [edgesInto_nil_of_notin s v m hsrc]
          rfl
        · rw [ih m hrm]
          apply flatMap_nil_of
          intro w _
          rfl
      · rw [if_neg hvm]

/-- With zero gradients on the reachable part (and `root.grad = 1`),
the flow at a reachable node is exactly the sum over all paths to the
root of the product of local derivatives. -/
theorem flowAux_eq_pathSum {α : Type} [Field α] (s : Store α) (root : Nat)
    (hwf : storeWF s) (hr : root < s.length) (g : Nat → α)
    (hg : ∀ v, Reaches s root v → g v = if v = root then 1 else 0) :
    ∀ fuel v, Reaches s root v →
      flowAux s (topoOf s root) g fuel v
        = ((pathsAux s root fuel v).map pathWeight).sum := by
  obtain ⟨hnd, hmem, hcl, hpw, hlenT⟩ := topoOf_spec s root hwf hr
  intro fuel
  induction fuel with
  | zero =>
      intro v hv
      rw [show flowAux s (topoOf s root) g 0 v = g v from rfl, hg v hv]
      by_cases hvr : v = root <;> simp [pathsAux, hvr, pathWeight]
  | succ fuel ih =>
      intro v hv
      simp only [flowAux, pathsAux]
      rw [hg v hv, List.map_append, List.sum_append]
      have h1 : ((if v = root then [([] : List (Nat × α))] else []).map pathWeight).sum
          = (if v = root then (1 : α) else 0) := by
        by_cases hvr : v = root <;> simp [hvr, pathWeight]
      rw [h1]
      refine congrArg (fun z => (if v = root then (1 : α) else 0) + z) ?_
      rw [sum_map_flatMap, ← sum_list_range]
      refine congrArg List.sum ?_
      apply List.map_congr_left
      intro m hm
      have hmlen : m < s.length := List.mem_range.1 hm
      by_cases hvm : v < m
      · by_cases hmT : m ∈ topoOf s root
        · rw [if_pos (⟨hvm, hmT⟩ : v < m ∧ m ∈ topoOf s root), if_pos hvm]
          rw [chunk_sum, ih m ((hmem m).1 hmT)]
          rfl
        · rw [if_neg (fun hc : v < m ∧ m ∈ topoOf s root => hmT hc.2), if_pos hvm]
          have hnr : ¬ Reaches s root m := fun h => hmT ((hmem m).2 h)
          rw [pathsAux_nil s root hwf fuel m hnr]
          have hz : (edgesInto s v m).flatMap
              (fun w => (([] : List (List (Nat × α))).map (fun p => (m, w) :: p))) = [] :=
            flatMap_nil_of _ _ (fun x _ => rfl)
          rw [hz]
          simp
      · rw [if_neg (fun hc : v < m ∧ m ∈ topoOf s root => hvm hc.1), if_neg hvm]
        simp

/-! ### The fresh node of an operator -/

theorem dataOf_push {α : Type} [Field α] (s : Store α) (n : NodeV α) :
    dataOf (s ++ [n]) s.length = n.data := by
  simpa using dataOf_append_right s [n] 0

theorem gradOf_push {α : Type} [Field α] (s : Store α) (n : NodeV α) :
    gradOf (s ++ [n]) s.length = n.grad := by
  simpa using gradOf_append_right s [n] 0

theorem prevOf_push {α : Type} (s : Store α) (n : NodeV α) :
    prevOf (s ++ [n]) s.length = n.prev := by
  simpa using prevOf_append_right s [n] 0

theorem ruleOf_push {α : Type} (s : Store α) (n : NodeV α) :
    ruleOf (s ++ [n]) s.length = n.rule := by
  simpa using ruleOf_append_right s [n] 0

/-- Appending a correctly wired fresh node preserves well-formedness. -/
theorem storeWF_push {α : Type} (s : Store α) (n : NodeV α) (hwf : storeWF s)
    (hprev : ∀ u ∈ n.prev, u < s.length)
    (hsrc : ∀ u ∈ ruleSrcIds n.rule, u ∈ n.prev)
    (hout : (ruleOutId n.rule).getD s.length = s.length) :
    storeWF (s ++ [n]) := by
  intro m hm
  rw [List.length_append, List.length_singleton] at hm
  by_cases hml : m < s.length
  · obtain ⟨h1, h2, h3⟩ := hwf m hml
    refine ⟨?_, ?_, ?_⟩
    · intro u hu
      rw [prevOf_append_lt s [n] m hml] at hu
      exact h1 u hu
    · intro u hu
      rw [ruleOf_append_lt s [n] m hml] at hu
      rw [prevOf_append_lt s [n] m hml]
      exact h2 u hu
    · rw [ruleOf_append_lt s [n] m hml]
      exact h3
  · have hmeq : m = s.length := by omega
    subst hmeq
    refine ⟨?_, ?_, ?_⟩
    · intro u hu
      rw [prevOf_push s n] at hu
      exact hprev u hu
    · intro u hu
      rw [ruleOf_push s n] at hu
      rw [prevOf_push s n]
      exact hsrc u hu
    · rw [ruleOf_push s n]
      exact hout

theorem storeWF_mkValue {α : Type} [Field α] (s : Store α) (x : α) (hwf : storeWF s) :
    storeWF (mkValue s x).1 := by
  apply storeWF_push s _ hwf
  · intro u hu
    cases hu
  · intro u hu
    cases hu
  · rfl

theorem storeWF_addOp_node {α : Type} [Field α] (s : Store α) (i j : Nat)
    (hwf : storeWF s) (hi : i < s.length) (hj : j < s.length) :
    storeWF (addOp s i (POperand.node j)).1 := by
  simp only [addOp, promoteOp]
  apply storeWF_push s _ hwf
  · intro u hu
    rw [List.mem_dedup] at hu
    have hor : u = i ∨ u = j := by simpa using hu
    rcases hor with rfl | rfl
    · exact hi
    · exact hj
  · intro u hu
    rw [List.mem_dedup]
    simpa [ruleSrcIds] using hu
  · rfl

theorem storeWF_mulOp_node {α : Type} [Field α] (s : Store α) (i j : Nat)
    (hwf : storeWF s) (hi : i < s.length) (hj : j < s.length) :
    storeWF (mulOp s i (POperand.node j)).1 := by
  simp only [mulOp, promoteOp]
  apply storeWF_push s _ hwf
  · intro u hu
    rw [List.mem_dedup] at hu
    have hor : u = i ∨ u = j := by simpa using hu
    rcases hor with rfl | rfl
    · exact hi
    · exact hj
  · intro u hu
    rw [List.mem_dedup]
    simpa [ruleSrcIds] using hu
  · rfl

theorem storeWF_powNum {α : Type} [Field α] (s : Store α) (i : Nat) (k : ℤ)
    (hwf : storeWF s) (hi : i < s.length) :
    storeWF (powNum s i k).1 := by
  apply storeWF_push s _ hwf
  · intro u hu
    simp at hu
    omega
  · intro u hu
    simpa [ruleSrcIds] using hu
  · rfl

theorem storeWF_tanhOp {α : Type} [Field α] (expF : α → α) (s : Store α) (i : Nat)
    (hwf : storeWF s) (hi : i < s.length) :
    storeWF (tanhOp expF s i).1 := by
  apply storeWF_push s _ hwf
  · intro u hu
    simp at hu
    omega
  · intro u hu
    simpa [ruleSrcIds] using hu
  · rfl

theorem storeWF_expOp {α : Type} [Field α] (expF : α → α) (s : Store α) (i : Nat)
    (hwf : storeWF s) (hi : i < s.length) :
    storeWF (expOp expF s i).1 := by
  apply storeWF_push s _ hwf
  · intro u hu
    simp at hu
    omega
  · intro u hu
    simpa [ruleSrcIds] using hu
  · rfl

/-! ### The claims -/

/-- C1: For every finite DAG built from the operator set (captured by
`storeWF`, which every operator preserves) and every node `n` reachable
from the root, if the grad of every reachable node is zero before the
call, then after `backward(root)` returns, `n.grad` equals ∂root/∂n,
accumulated by summing over all paths from `n` to the root the product
of the local derivatives along the path (multivariate chain rule). -/
theorem c1_backward_chain_rule (s : Store ℝ) (root n : Nat)
    (hwf : storeWF s) (hr : root < s.length)
    (h0 : ∀ m, Reaches s root m → gradOf s m = 0) (hn : Reaches s root n) :
    gradOf (backward s root) n = pathSum s root n := by
  obtain ⟨hnd, hmem, hcl, hpw, hlenT⟩ := topoOf_spec s root hwf hr
  have hnT : n ∈ topoOf s root := (hmem n).2 hn
  rw [backward_grads s root hwf hr n, if_pos hnT]
  have hg : ∀ v, Reaches s root v →
      gradOf (setGrad s root 1) v = if v = root then 1 else 0 := by
    intro v hv
    rw [gradOf_setGrad]
    by_cases hvr : v = root
    · simp [hvr, hr]
    · rw [if_neg (fun hc : v = root ∧ root < s.length => hvr hc.1), if_neg hvr]
      exact h0 v hv
  exact flowAux_eq_pathSum s root hwf hr _ hg s.length n hn

/-- Witness for C1 on the concrete arena of `Value(2) * Value(3)`. -/
theorem c1_backward_chain_rule_witness :
    storeWF demoMul ∧ 2 < demoMul.length ∧ Reaches demoMul 2 0 ∧
    gradOf (backward demoMul 2) 0 = pathSum demoMul 2 0 := by
  have hz : ∀ m, Reaches demoMul 2 m → gradOf demoMul m = 0 := by
    intro m hm
    have hml : m ≤ 2 := reaches_le (by decide) hm
    interval_cases m <;> rfl
  have hR : Reaches demoMul 2 0 :=
    Reaches.step (show (0 : Nat) ∈ prevOf demoMul 2 by decide) (Reaches.refl 0)
  exact ⟨by decide, by decide, hR,
    c1_backward_chain_rule demoMul 2 0 (by decide) (by decide) hz hR⟩

/-- C2: The topological sequence built internally by `backward(root)`
contains every node reachable from the root exactly once (membership
is reachability and the list is duplicate-free) and places every node
after all of its predecessors, so that iterating it in reverse runs
every node's propagate closure exactly once and before the closures of
any of its predecessors. -/
theorem c2_topo_order (s : Store ℝ) (root : Nat) (hwf : storeWF s)
    (hr : root < s.length) :
    (topoOf s root).Nodup ∧
    (∀ n, n ∈ topoOf s root ↔ Reaches s root n) ∧
    (∀ l1 m l2, topoOf s root = l1 ++ m :: l2 → ∀ u ∈ prevOf s m, u ∈ l1) := by
  obtain ⟨hnd, hmem, hcl, hpw, hlenT⟩ := topoOf_spec s root hwf hr
  exact ⟨hnd, hmem, topoOf_sorted s root hwf hr⟩

/-- Witness for C2 on the concrete arena of `Value(2) * Value(3)`. -/
theorem c2_topo_order_witness :
    storeWF demoMul ∧ 2 < demoMul.length ∧
    ((topoOf demoMul 2).Nodup ∧
    (∀ n, n ∈ topoOf demoMul 2 ↔ Reaches demoMul 2 n) ∧
    (∀ l1 m l2, topoOf demoMul 2 = l1 ++ m :: l2 → ∀ u ∈ prevOf demoMul m, u ∈ l1)) :=
  ⟨by decide, by decide, c2_topo_order demoMul 2 (by decide) (by decide)⟩

/-- C9: A node with no path to the root is never visited by the
traversal (it is not in the topological sequence) and its grad is
exactly the same after `backward(root)` as before it. -/
theorem c9_unreachable_untouched (s : Store ℝ) (root n : Nat) (hwf : storeWF s)
    (hr : root < s.length) (hn : ¬ Reaches s root n) :
    n ∉ topoOf s root ∧ gradOf (backward s root) n = gradOf s n := by
  obtain ⟨hnd, hmem, hcl, hpw, hlenT⟩ := topoOf_spec s root hwf hr
  have hnT : n ∉ topoOf s root := fun h => hn ((hmem n).1 h)
  refine ⟨hnT, ?_⟩
  rw [backward_grads s root hwf hr n, if_neg hnT]

/-- Witness for C9: in `demoFrame` the extra leaf (index 3, gradient 5)
has no path to the product root (index 2) and keeps its gradient. -/
theorem c9_unreachable_untouched_witness :
    storeWF demoFrame ∧ 2 < demoFrame.length ∧ ¬ Reaches demoFrame 2 3 ∧
    (3 ∉ topoOf demoFrame 2 ∧ gradOf (backward demoFrame 2) 3 = gradOf demoFrame 3) := by
  have hnr : ¬ Reaches demoFrame 2 3 := by
    intro h
    have := reaches_le (show storeWF demoFrame by decide) h
    omega
  exact ⟨by decide, by decide, hnr,
    c9_unreachable_untouched demoFrame 2 3 (by decide) (by decide) hnr⟩

/-- C3: For every node `a` with grad zero, calling `backward` on the
node `multiply(a, a)` sets `a.grad` to `2 * a.value` — both uses of `a`
as an operand contribute, even though `a` appears only once in the
result's predecessor set. -/
theorem c3_square_accumulates (s : Store ℝ) (a : Nat) (hwf : storeWF s)
    (ha : a < s.length) (hg : gradOf s a = 0) :
    gradOf (backward (mulOp s a (POperand.node a)).1 (mulOp s a (POperand.node a)).2) a
      = 2 * dataOf s a := by
  set S2 := (mulOp s a (POperand.node a)).1 with hS2
  have hwf2 : storeWF S2 := storeWF_mulOp_node s a a hwf ha ha
  have hfst : S2 = s ++ [⟨dataOf s a * dataOf s a, 0, List.dedup [a, a], "*",
      BRule.mulR a a s.length, ""⟩] := rfl
  have hsnd : (mulOp s a (POperand.node a)).2 = s.length := rfl
  have hlen2 : S2.length = s.length + 1 := by rw [hfst]; simp
  have hprevr : prevOf S2 s.length = [a] := by
    rw [hfst, prevOf_push]
    simp
  have hruler : ruleOf S2 s.length = BRule.mulR a a s.length := by
    rw [hfst, ruleOf_push]
  have hdata_a : dataOf S2 a = dataOf s a := by
    rw [hfst, dataOf_append_lt s _ a ha]
  have hgrad_a : gradOf S2 a = 0 := by
    rw [hfst, gradOf_append_lt s _ a ha, hg]
  have hrlen : s.length < S2.length := by omega
  obtain ⟨hnd, hmem, hcl, hpw, hlenT⟩ := topoOf_spec S2 s.length hwf2 hrlen
  have hreach : Reaches S2 s.length a :=
    Reaches.step (by rw [hprevr]; simp) (Reaches.refl a)
  have haT : a ∈ topoOf S2 s.length := (hmem a).2 hreach
  rw [hsnd, backward_grads S2 s.length hwf2 hrlen a, if_pos haT]
  show flowAux S2 (topoOf S2 s.length) (gradOf (setGrad S2 s.length 1)) S2.length a
      = 2 * dataOf s a
  rw [flowAux_fixed S2 (topoOf S2 s.length) (gradOf (setGrad S2 s.length 1))
    (by omega) a]
  have hflow_r : flowAux S2 (topoOf S2 s.length) (gradOf (setGrad S2 s.length 1))
      S2.length s.length = 1 := by
    rw [flowAux_fixed S2 (topoOf S2 s.length) (gradOf (setGrad S2 s.length 1))
      (by omega) s.length]
    rw [Finset.sum_eq_zero, add_zero]
    · rw [gradOf_setGrad, if_pos ⟨rfl, hrlen⟩]
    · intro m hm
      by_cases hc : s.length < m ∧ m ∈ topoOf S2 s.length
      · have hle : m ≤ s.length := reaches_le hwf2 ((hmem m).1 hc.2)
        exact absurd hc.1 (by omega)
      · simp [hc]
  have hsum : Finset.sum (Finset.range S2.length)
      (fun m => if a < m ∧ m ∈ topoOf S2 s.length
        then cw S2 a m * flowAux S2 (topoOf S2 s.length)
          (gradOf (setGrad S2 s.length 1)) S2.length m
        else 0)
      = cw S2 a s.length * flowAux S2 (topoOf S2 s.length)
          (gradOf (setGrad S2 s.length 1)) S2.length s.length := by
    rw [Finset.sum_eq_single s.length]
    · rw [if_pos ⟨ha, (hmem s.length).2 (Reaches.refl s.length)⟩]
    · intro m hm hne
      by_cases hc : a < m ∧ m ∈ topoOf S2 s.length
      · exfalso
        have hrm : Reaches S2 s.length m := (hmem m).1 hc.2
        cases hrm with
        | refl => exact hne rfl
        | step hu hr2 =>
            rename_i u
            have hua : u = a := by
              rw [hprevr] at hu
              simpa using hu
            rw [hua] at hr2
            have := reaches_le hwf2 hr2
            omega
      · simp [hc]
    · intro hb
      exact absurd (Finset.mem_range.2 hrlen) hb
  have hcw : cw S2 a s.length = dataOf s a + dataOf s a := by
    simp [cw, edgesInto, hruler, cList, hdata_a]
  have hg0a : gradOf (setGrad S2 s.length 1) a = 0 := by
    rw [gradOf_setGrad, if_neg (fun hc : a = s.length ∧ _ => absurd hc.1 (by omega))]
    exact hgrad_a
  rw [hsum, hflow_r, hcw, hg0a]
  ring

/-- Witness for C3 on a single leaf holding `5`: after `backward` on
`a * a`, `a.grad = 10`. -/
theorem c3_square_accumulates_witness :
    storeWF demoLeaf5 ∧ 0 < demoLeaf5.length ∧ gradOf demoLeaf5 0 = 0 ∧
    gradOf (backward (mulOp demoLeaf5 0 (POperand.node 0)).1
      (mulOp demoLeaf5 0 (POperand.node 0)).2) 0 = 2 * dataOf demoLeaf5 0 :=
  ⟨by decide, by decide, rfl,
    c3_square_accumulates demoLeaf5 0 (by decide) (by decide) rfl⟩

/-- C4: The predecessor set of an operator's result contains each
operand exactly once even when the same node is passed as both
operands; in particular `multiply(a, a).predecessors` contains `a`
exactly once, not twice. -/
theorem c4_predecessors_dedup (s : Store ℝ) (i j : Nat) :
    ((prevOf (mulOp s i (POperand.node j)).1 (mulOp s i (POperand.node j)).2).count i
      = 1) ∧
    ((prevOf (mulOp s i (POperand.node j)).1 (mulOp s i (POperand.node j)).2).count j
      = 1) ∧
    (∀ u, u ∈ prevOf (mulOp s i (POperand.node j)).1 (mulOp s i (POperand.node j)).2
      ↔ u = i ∨ u = j) := by
  have hp : prevOf (mulOp s i (POperand.node j)).1 (mulOp s i (POperand.node j)).2
      = List.dedup [i, j] := prevOf_push s _
  rw [hp]
  refine ⟨?_, ?_, ?_⟩
  · exact List.count_eq_one_of_mem (List.nodup_dedup _) (List.mem_dedup.2 (by simp))
  · exact List.count_eq_one_of_mem (List.nodup_dedup _) (List.mem_dedup.2 (by simp))
  · intro u
    rw [List.mem_dedup]
    simp

/-- C7: The power operator raises its error exactly when the exponent
operand is a node rather than a number; for a number exponent `k` it
returns a node with value `a.value ** k`, predecessor list `[a]`, and
a propagate rule that adds `k * a.value ** (k - 1) * out.grad` to
`a.grad` (shown for an arbitrary `out.grad`). -/
theorem c7_pow_exponent (s : Store ℝ) (i : Nat) (hi : i < s.length) :
    (∀ arg : PowArg ℝ, (∃ e, powOp s i arg = Except.error e)
      ↔ ∃ j, arg = PowArg.pnode j) ∧
    (∀ k : ℤ, powOp s i (PowArg.pnum k) = Except.ok (powNum s i k)) ∧
    (∀ k : ℤ, dataOf (powNum s i k).1 (powNum s i k).2 = dataOf s i ^ k) ∧
    (∀ k : ℤ, prevOf (powNum s i k).1 (powNum s i k).2 = [i]) ∧
    (∀ (k : ℤ) (gout : ℝ),
      gradOf (runRule (setGrad (powNum s i k).1 (powNum s i k).2 gout)
          (ruleOf (powNum s i k).1 (powNum s i k).2)) i
        = gradOf s i + (k : ℝ) * dataOf s i ^ (k - 1) * gout) := by
  refine ⟨?_, ?_, ?_, ?_, ?_⟩
  · intro arg
    cases arg with
    | pnum k => simp [powOp]
    | pnode j => simp [powOp]
  · intro k
    rfl
  · intro k
    exact dataOf_push s _
  · intro k
    exact prevOf_push s _
  · intro k gout
    have hrul : ruleOf (powNum s i k).1 (powNum s i k).2 = BRule.powR i k s.length :=
      ruleOf_push s _
    have hlenp : (powNum s i k).1.length = s.length + 1 := by
      simp [powNum]
    have hstlen : (setGrad (powNum s i k).1 (powNum s i k).2 gout).length
        = s.length + 1 := by
      rw [length_setGrad, hlenp]
    have hd : dataOf (setGrad (powNum s i k).1 (powNum s i k).2 gout) i = dataOf s i := by
      rw [dataOf_setGrad]
      exact dataOf_append_lt s _ i hi
    have hgi : gradOf (setGrad (powNum s i k).1 (powNum s i k).2 gout) i = gradOf s i := by
      have hne : i ≠ (powNum s i k).2 := by
        show i ≠ s.length
        omega
      rw [gradOf_setGrad, if_neg (fun hc => hne hc.1)]
      exact gradOf_append_lt s _ i hi
    have hgr : gradOf (setGrad (powNum s i k).1 (powNum s i k).2 gout) s.length
        = gout := by
      rw [gradOf_setGrad]
      rw [if_pos]
      refine ⟨rfl, ?_⟩
      show s.length < (powNum s i k).1.length
      rw [hlenp]
      omega
    rw [hrul]
    simp only [runRule]
    rw [gradOf_addGrad, if_pos ⟨rfl, by rw [hstlen]; omega⟩, hd, hgi, hgr]

/-- Witness for C7 on the concrete arena of `Value(2) * Value(3)`,
node 0 as the base. -/
theorem c7_pow_exponent_witness :
    0 < demoMul.length ∧
    ((∀ arg : PowArg ℝ, (∃ e, powOp demoMul 0 arg = Except.error e)
      ↔ ∃ j, arg = PowArg.pnode j) ∧
    (∀ k : ℤ, powOp demoMul 0 (PowArg.pnum k) = Except.ok (powNum demoMul 0 k)) ∧
    (∀ k : ℤ, dataOf (powNum demoMul 0 k).1 (powNum demoMul 0 k).2 = dataOf demoMul 0 ^ k) ∧
    (∀ k : ℤ, prevOf (powNum demoMul 0 k).1 (powNum demoMul 0 k).2 = [0]) ∧
    (∀ (k : ℤ) (gout : ℝ),
      gradOf (runRule (setGrad (powNum demoMul 0 k).1 (powNum demoMul 0 k).2 gout)
          (ruleOf (powNum demoMul 0 k).1 (powNum demoMul 0 k).2)) 0
        = gradOf demoMul 0 + (k : ℝ) * dataOf demoMul 0 ^ (k - 1) * gout)) :=
  ⟨by decide, c7_pow_exponent demoMul 0 (by decide)⟩

/-- C8: For every real input node, the node returned by the `tanh`
operator has a value strictly greater than -1 and strictly less
than 1. -/
theorem c8_tanh_range (s : Store ℝ) (i : Nat) :
    -1 < dataOf (tanhOp Real.exp s i).1 (tanhOp Real.exp s i).2 ∧
    dataOf (tanhOp Real.exp s i).1 (tanhOp Real.exp s i).2 < 1 := by
  have hd : dataOf (tanhOp Real.exp s i).1 (tanhOp Real.exp s i).2
      = (Real.exp (2 * dataOf s i) - 1) / (Real.exp (2 * dataOf s i) + 1) :=
    dataOf_push s _
  rw [hd]
  have hE : 0 < Real.exp (2 * dataOf s i) := Real.exp_pos _
  constructor
  · rw [lt_div_iff₀ (by linarith)]
    linarith
  · rw [div_lt_one (by linarith)]
    linarith

/-- C5 counterexample: on the arena of `Value(2) * Value(3)`, calling
`backward` twice on the product leaves the product's own grad at 1.0
(it is reassigned, not accumulated), not double its value after the
first call — refuting the claim for the root node. -/
theorem c5_counterexample :
    gradOf (backward demoMul 2) 2 = 1 ∧
    gradOf (backward (backward demoMul 2) 2) 2 = 1 ∧
    gradOf (backward (backward demoMul 2) 2) 2 ≠ 2 * gradOf (backward demoMul 2) 2 := by
  have hb1 : backward demoMul 2 = demoMulG1 := rfl
  rw [hb1]
  have h1 : gradOf demoMulG1 2 = 1 := rfl
  have h2 : gradOf (backward demoMulG1 2) 2 = 1 := rfl
  refine ⟨h1, h2, ?_⟩
  rw [h1, h2]
  norm_num

/-- C5 amended: calling `backward` twice in succession without zeroing
grads does not uniformly double: on the family `(x*y)*z`, after the
second call the root's grad is still 1.0 (reassigned, not doubled),
the grads of the depth-1 nodes are exactly doubled, and the grads of
the depth-2 leaves are exactly tripled. -/
theorem c5_amended (x y z : ℝ) :
    gradOf (backward (demoChain x y z) 4) 4 = 1 ∧
    gradOf (backward (demoChain x y z) 4) 3 = z ∧
    gradOf (backward (demoChain x y z) 4) 2 = x * y ∧
    gradOf (backward (demoChain x y z) 4) 0 = y * z ∧
    gradOf (backward (demoChain x y z) 4) 1 = x * z ∧
    gradOf (backward (backward (demoChain x y z) 4) 4) 4
      = gradOf (backward (demoChain x y z) 4) 4 ∧
    gradOf (backward (backward (demoChain x y z) 4) 4) 3
      = 2 * gradOf (backward (demoChain x y z) 4) 3 ∧
    gradOf (backward (backward (demoChain x y z) 4) 4) 2
      = 2 * gradOf (backward (demoChain x y z) 4) 2 ∧
    gradOf (backward (backward (demoChain x y z) 4) 4) 0
      = 3 * gradOf (backward (demoChain x y z) 4) 0 ∧
    gradOf (backward (backward (demoChain x y z) 4) 4) 1
      = 3 * gradOf (backward (demoChain x y z) 4) 1 := by
  have hb1 : backward (demoChain x y z) 4 = demoChainG1 x y z := rfl
  have hb2 : backward (demoChainG1 x y z) 4 = demoChainG2 x y z := rfl
  rw [hb1, hb2]
  have e4 : gradOf (demoChainG1 x y z) 4 = 1 := rfl
  have e3 : gradOf (demoChainG1 x y z) 3 = 0 + z * 1 := rfl
  have e2 : gradOf (demoChainG1 x y z) 2 = 0 + x * y * 1 := rfl
  have e0 : gradOf (demoChainG1 x y z) 0 = 0 + y * (0 + z * 1) := rfl
  have e1 : gradOf (demoChainG1 x y z) 1 = 0 + x * (0 + z * 1) := rfl
  have f4 : gradOf (demoChainG2 x y z) 4 = 1 := rfl
  have f3 : gradOf (demoChainG2 x y z) 3 = 0 + z * 1 + z * 1 := rfl
  have f2 : gradOf (demoChainG2 x y z) 2
      = 0 + x * y * 1 + x * y * 1 := rfl
  have f0 : gradOf (demoChainG2 x y z) 0
      = 0 + y * (0 + z * 1) + y * (0 + z * 1 + z * 1) := rfl
  have f1 : gradOf (demoChainG2 x y z) 1
      = 0 + x * (0 + z * 1) + x * (0 + z * 1 + z * 1) := rfl
  refine ⟨e4, ?_, ?_, ?_, ?_, ?_, ?_, ?_, ?_, ?_⟩
  · rw [e3]; ring
  · rw [e2]; ring
  · rw [e0]; ring
  · rw [e1]; ring
  · rw [f4, e4]
  · rw [f3, e3]; ring
  · rw [f2, e2]; ring
  · rw [f0, e0]; ring
  · rw [f1, e1]; ring

/-- C6 counterexample: a two-input neuron applied to a one-element
input does not fail: `zip` silently truncates, and the call returns a
tanh node computed from the first weight and the bias only (weights
`1, 1`, bias `0`, input `2` give `tanh(2)`'s defining expression). -/
theorem c6_counterexample :
    (neuronCall Real.exp (demoNeuronStore 1 1 0 2) [0, 1] [3] 2).1.length = 9 ∧
    dataOf (neuronCall Real.exp (demoNeuronStore 1 1 0 2) [0, 1] [3] 2).1
        (neuronCall Real.exp (demoNeuronStore 1 1 0 2) [0, 1] [3] 2).2
      = (Real.exp (2 * (1 * 2 + 0 + 0)) - 1) / (Real.exp (2 * (1 * 2 + 0 + 0)) + 1) :=
  ⟨rfl, rfl⟩

/-- C6 amended: applying a Neuron with input width 2 to an input of
length 1 raises nothing; the activation is computed over the
`zip`-truncated pairs (the second weight is ignored entirely) plus the
bias, then passed through tanh. -/
theorem c6_amended (w1 w2 bv x1 : ℝ) :
    dataOf (neuronCall Real.exp (demoNeuronStore w1 w2 bv x1) [0, 1] [3] 2).1
        (neuronCall Real.exp (demoNeuronStore w1 w2 bv x1) [0, 1] [3] 2).2
      = (Real.exp (2 * (w1 * x1 + 0 + bv)) - 1)
        / (Real.exp (2 * (w1 * x1 + 0 + bv)) + 1) ∧
    (neuronCall Real.exp (demoNeuronStore w1 w2 bv x1) [0, 1] [3] 2).1.length = 9 :=
  ⟨rfl, rfl⟩

theorem fresh_leaf_addOp (s : Store ℝ) (i : Nat) (c : ℝ) :
    dataOf (addOp s i (POperand.num c)).1 s.length = c ∧
    prevOf (addOp s i (POperand.num c)).1 s.length = [] := by
  constructor
  · show dataOf ((s ++ [⟨c, 0, [], "", BRule.noop, ""⟩]) ++ [_]) s.length = c
    rw [dataOf_append_lt _ _ s.length (by simp)]
    exact dataOf_push s _
  · show prevOf ((s ++ [⟨c, 0, [], "", BRule.noop, ""⟩]) ++ [_]) s.length = []
    rw [prevOf_append_lt _ _ s.length (by simp)]
    exact prevOf_push s _

theorem fresh_leaf_mulOp (s : Store ℝ) (i : Nat) (c : ℝ) :
    dataOf (mulOp s i (POperand.num c)).1 s.length = c ∧
    prevOf (mulOp s i (POperand.num c)).1 s.length = [] := by
  constructor
  · show dataOf ((s ++ [⟨c, 0, [], "", BRule.noop, ""⟩]) ++ [_]) s.length = c
    rw [dataOf_append_lt _ _ s.length (by simp)]
    exact dataOf_push s _
  · show prevOf ((s ++ [⟨c, 0, [], "", BRule.noop, ""⟩]) ++ [_]) s.length = []
    rw [prevOf_append_lt _ _ s.length (by simp)]
    exact prevOf_push s _

/-- C10 counterexample: `Value(5) - 3` does not promote `3` to a fresh
leaf: the two nodes it creates hold `-3` (the promoted leaf) and `2`
(the difference); no created node holds `3`. -/
theorem c10_counterexample :
    ((subOp demoLeaf5 0 (POperand.num 3)).1.map NodeV.data) = [5, -3, 2] ∧
    (3 : ℝ) ∉ ((subOp demoLeaf5 0 (POperand.num 3)).1.drop 1).map NodeV.data := by
  constructor
  · show ([5, -3, 5 + -3] : List ℝ) = [5, -3, 2]
    norm_num
  · show (3 : ℝ) ∉ ([-3, 5 + -3] : List ℝ)
    norm_num

/-- C10 amended: operand promotion is asymmetric, but the promoted
leaf is not always `c` itself: `a + c`, `c + a`, `a * c`, `c * a`
promote `c` to a fresh leaf; `a - c` promotes `-c` (negation happens
in raw arithmetic before promotion); `a / c` promotes `c⁻¹` (the
reciprocal is computed in raw arithmetic); and `c - a`, `c / a` fail
with a TypeError because `Value` defines no reflected subtraction or
division. -/
theorem c10_promotion_asymmetric (s : Store ℝ) (i : Nat) (c : ℝ) :
    (dataOf (addOp s i (POperand.num c)).1 s.length = c ∧
     prevOf (addOp s i (POperand.num c)).1 s.length = []) ∧
    numLeftApply BinKind.badd s c i = Except.ok (addOp s i (POperand.num c)) ∧
    (dataOf (mulOp s i (POperand.num c)).1 s.length = c ∧
     prevOf (mulOp s i (POperand.num c)).1 s.length = []) ∧
    numLeftApply BinKind.bmul s c i = Except.ok (mulOp s i (POperand.num c)) ∧
    (dataOf (subOp s i (POperand.num c)).1 s.length = -c ∧
     prevOf (subOp s i (POperand.num c)).1 s.length = []) ∧
    (dataOf (divOp s i (POperand.num c)).1 s.length = c⁻¹ ∧
     prevOf (divOp s i (POperand.num c)).1 s.length = []) ∧
    (∃ e, numLeftApply BinKind.bsub s c i = Except.error e) ∧
    (∃ e, numLeftApply BinKind.bdiv s c i = Except.error e) := by
  refine ⟨fresh_leaf_addOp s i c, rfl, fresh_leaf_mulOp s i c, rfl,
    fresh_leaf_addOp s i (-c), fresh_leaf_mulOp s i c⁻¹, ⟨_, rfl⟩, ⟨_, rfl⟩⟩

/-! ### The witness stores are operator-built arenas -/

theorem demoMul_built :
    (mulOp (mkValue (mkValue ([] : Store ℝ) 2).1 3).1 0 (POperand.node 1)).1
      = demoMul := by
  have h1 : (mulOp (mkValue (mkValue ([] : Store ℝ) 2).1 3).1 0 (POperand.node 1)).1
      = [⟨2, 0, [], "", BRule.noop, ""⟩, ⟨3, 0, [], "", BRule.noop, ""⟩,
         ⟨(2 : ℝ) * 3, 0, [0, 1], "*", BRule.mulR 0 1 2, ""⟩] := rfl
  rw [h1]
  simp only [demoMul]
  norm_num

theorem demoChain_built (x y z : ℝ) :
    (mulOp (mulOp [⟨x, 0, [], "", BRule.noop, ""⟩, ⟨y, 0, [], "", BRule.noop, ""⟩,
        ⟨z, 0, [], "", BRule.noop, ""⟩] 0 (POperand.node 1)).1 3 (POperand.node 2)).1
      = demoChain x y z := rfl
